import Mathlib

/-!
Shallow embedding of the binary-CSP solving engine of this repository
(`src/assignment3.py`, `solutions/p3_basic_backtracking.py`, `solutions/p4_ac3.py`,
`solutions/p5_ordering.py`, `solutions/p6_solver.py`) and verification of the
frozen claims about it.

Variables are identified by their position in the CSP's variable list, values
are natural numbers, and the mutable search state is the list of all current
domains together with the transaction stack of domain snapshots.  Python
dictionaries (the lazily built constraint lookup tables) are embedded as
insertion-ordered association lists, which matches CPython's dict semantics.
Loops that mutate a list while iterating over it (`revise`) are embedded
index-by-index with the exact iterator semantics.  Recursions whose
termination Python leaves implicit (`ac3`, `backtrack`) take an explicit
fuel argument; exhausted fuel returns the failure/neutral result, and all
concrete evaluations below use ample fuel.
-/

namespace P3

/-- The three relations used by the constraints (`operator.ne`, `operator.lt`,
`operator.gt`); these are exactly the keys of `Constraint.inverse`. -/
inductive Rel where
  | ne
  | lt
  | gt
deriving DecidableEq, Repr

/-- Evaluation of a relation on two values (`self.relation(val1, val2)`). -/
def Rel.holds : Rel → Nat → Nat → Bool
  | .ne, a, b => a != b
  | .lt, a, b => a < b
  | .gt, a, b => b < a

/-- The `Constraint.inverse` table: `ne ↦ ne`, `gt ↦ lt`, `lt ↦ gt`. -/
def Rel.inv : Rel → Rel
  | .ne => .ne
  | .lt => .gt
  | .gt => .lt

/-- A directed binary constraint `var1 (relation) var2`; variables are indices
into the CSP's variable list.  Equality is structural, matching the Python
`__eq__` on `(var1, var2, relation)`. -/
structure Constraint where
  var1 : Nat
  var2 : Nat
  rel : Rel
deriving DecidableEq, Repr

/-- `Constraint._flip`: swapped variables, inverted relation. -/
def Constraint.flip (c : Constraint) : Constraint :=
  ⟨c.var2, c.var1, c.rel.inv⟩

/-- A binary CSP: the number of variables and the immutable constraint list. -/
structure CSP where
  numVars : Nat
  constraints : List Constraint
deriving DecidableEq, Repr

/-- The mutable part of a CSP: every variable's current domain (indexed by
variable position) and the transaction stack of domain snapshots. -/
structure SearchState where
  doms : List (List Nat)
  stack : List (List (List Nat))
deriving DecidableEq, Repr

/-- The current domain of variable `i` (`variable.domain`). -/
def dom (s : SearchState) (i : Nat) : List Nat :=
  s.doms.getD i []

/-- `Variable.assign(value)`: replaces the domain with the singleton `[value]`. -/
def assignVar (s : SearchState) (i v : Nat) : SearchState :=
  ⟨s.doms.set i [v], s.stack⟩

/-- `Variable.is_assigned()`: true iff the domain has exactly one element. -/
def isAssigned (s : SearchState) (i : Nat) : Bool :=
  (dom s i).length == 1

/-- `Variable.value`: the sole domain element; the source asserts
`is_assigned()` first, so a domain that is not a singleton yields no value. -/
def valueOf (d : List Nat) : Option Nat :=
  match d with
  | [v] => some v
  | _ => none

/-- `Variables.begin_transaction()`: pushes a deep copy of all current domains. -/
def beginTransaction (s : SearchState) : SearchState :=
  ⟨s.doms, s.doms :: s.stack⟩

/-- `Variables.rollback()`: pops the most recent snapshot and restores every
variable's domain from it.  On an empty stack the source raises (list `pop`
from an empty list); that error case is modelled separately by
`rollbackChecked`. -/
def rollback (s : SearchState) : SearchState :=
  match s.stack with
  | [] => s
  | snap :: rest => ⟨snap, rest⟩

/-- `Variables.rollback()` with the empty-stack error made explicit: popping
an empty transaction log fails (Python raises `IndexError`). -/
def rollbackChecked (s : SearchState) : Option SearchState :=
  match s.stack with
  | [] => none
  | snap :: rest => some ⟨snap, rest⟩

/-! ### Transactions (claim C1)

A domain mutation is any of the controlled domain updates the engine
performs between `begin_transaction` and `rollback`: an assignment
(`variable.assign(value)`), an AC3 pruning step (`xi.domain.remove(xVal)`),
or an arbitrary domain overwrite (`variable.domain = [...]`, as in the
docstring of `Variables`).  `Prog` is the language of such mutation
sequences, including nested transactions. -/

/-- One domain mutation: assignment, AC3 pruning, or a domain overwrite. -/
inductive DomMut where
  | assign (i v : Nat)
  | prune (i v : Nat)
  | setDom (i : Nat) (d : List Nat)

/-- Applying a domain mutation to the state; only `doms` is touched, the
transaction stack is not (exactly as in the source, where these operations
only write `variable.domain`). -/
def applyDomMut (s : SearchState) : DomMut → SearchState
  | .assign i v => assignVar s i v
  | .prune i v => ⟨s.doms.set i ((dom s i).erase v), s.stack⟩
  | .setDom i d => ⟨s.doms.set i d, s.stack⟩

/-- A sequence of domain mutations, possibly containing nested
begin/rollback pairs. -/
inductive Prog where
  | skip
  | act (m : DomMut)
  | seq (p q : Prog)
  | tx (p : Prog)

/-- Execution of a mutation program; `tx p` is
`begin_transaction(); p; rollback()`. -/
def exec : Prog → SearchState → SearchState
  | .skip, s => s
  | .act m, s => applyDomMut s m
  | .seq p q, s => exec q (exec p s)
  | .tx p, s => rollback (exec p (beginTransaction s))

theorem applyDomMut_stack (s : SearchState) (m : DomMut) :
    (applyDomMut s m).stack = s.stack := by
  cases m <;> rfl

theorem rollback_of_stack (t : SearchState) (snap : List (List Nat))
    (rest : List (List (List Nat))) (h : t.stack = snap :: rest) :
    rollback t = ⟨snap, rest⟩ := by
  cases t with
  | mk d st => cases h; rfl

/-- A mutation program leaves the transaction stack exactly as it found it:
plain mutations never touch it and every nested transaction pushes one
snapshot and pops exactly that one. -/
theorem exec_stack (p : Prog) (s : SearchState) : (exec p s).stack = s.stack := by
  induction p generalizing s with
  | skip => rfl
  | act m => exact applyDomMut_stack s m
  | seq p q ihp ihq =>
    simp only [exec]
    rw [ihq, ihp]
  | tx p ih =>
    have h : (exec p (beginTransaction s)).stack = s.doms :: s.stack :=
      ih (beginTransaction s)
    simp only [exec]
    rw [rollback_of_stack _ _ _ h]

/-- C1. Transaction round-trip: for every state and every sequence of domain
mutations (assignments, AC3 pruning, domain overwrites, including nested
begin/rollback pairs) performed after a `begin_transaction()`, the matching
`rollback()` restores every variable's domain to exactly its state at the
time of that `begin_transaction()`, pops exactly that one snapshot, and
changes nothing else: the whole state, transaction stack included, is
restored exactly, and this holds at any nesting depth since `s` may itself
carry an arbitrary stack of outer snapshots. -/
theorem tx_roundtrip_c1 (p : Prog) (s : SearchState) : exec (Prog.tx p) s = s := by
  have h : (exec p (beginTransaction s)).stack = s.doms :: s.stack :=
    exec_stack p (beginTransaction s)
  simp only [exec]
  rw [rollback_of_stack _ _ _ h]

/-! ### Invalid-state failures (claim C7) -/

/-- C7. Invalid-state failures are loud: reading `Variable.value` when the
domain does not have exactly one element produces no value (the source
fails the `assert self.is_assigned()` check rather than returning anything),
and `rollback()` on an empty transaction log likewise fails (popping an
empty list raises); neither returns normally. -/
theorem invalid_state_loud_c7 :
    (∀ d : List Nat, d.length ≠ 1 → valueOf d = none) ∧
    (∀ ds : List (List Nat), rollbackChecked ⟨ds, []⟩ = none) := by
  constructor
  · intro d hd
    match d with
    | [] => rfl
    | [v] => simp at hd
    | a :: b :: rest => rfl
  · intro ds
    rfl

/-- Witness for C7 at concrete inputs: a two-element domain yields no value,
an empty domain yields no value, and rolling back an empty log fails. -/
theorem invalid_state_loud_c7_witness :
    valueOf [3, 4] = none ∧ valueOf [] = none ∧
      rollbackChecked ⟨[[1], [2]], []⟩ = none :=
  ⟨invalid_state_loud_c7.1 [3, 4] (by decide),
   invalid_state_loud_c7.1 [] (by decide),
   invalid_state_loud_c7.2 [[1], [2]]⟩

/-! ### The constraint index (`Constraints._unary_lut` / `_binary_lut`)

Python dictionaries are insertion ordered: assigning to a present key
updates the value in place, assigning to an absent key appends it.  The
lookup tables are built once from the immutable constraint list, so they
are embedded as pure functions of that list. -/

section Dict

variable {κ α : Type} [DecidableEq κ]

/-- Ordered-dictionary lookup. -/
def dictGet : List (κ × α) → κ → Option α
  | [], _ => none
  | (k, v) :: rest, key => if k = key then some v else dictGet rest key

/-- Ordered-dictionary assignment: update in place if the key is present,
append otherwise (CPython dict semantics). -/
def dictSet : List (κ × α) → κ → α → List (κ × α)
  | [], key, v => [(key, v)]
  | (k, w) :: rest, key, v =>
    if k = key then (key, v) :: rest else (k, w) :: dictSet rest key v

theorem dictGet_dictSet_self (d : List (κ × α)) (k : κ) (v : α) :
    dictGet (dictSet d k v) k = some v := by
  induction d with
  | nil => simp [dictSet, dictGet]
  | cons p rest ih =>
    obtain ⟨k0, w⟩ := p
    by_cases h : k0 = k
    · simp [dictSet, dictGet, h]
    · simp [dictSet, dictGet, h, ih]

theorem dictGet_dictSet_ne (d : List (κ × α)) (k k1 : κ) (v : α) (h : k1 ≠ k) :
    dictGet (dictSet d k v) k1 = dictGet d k1 := by
  have hk : ¬k = k1 := fun he => h he.symm
  induction d with
  | nil => simp [dictSet, dictGet, hk]
  | cons p rest ih =>
    obtain ⟨k0, w⟩ := p
    by_cases h0 : k0 = k
    · subst h0
      simp [dictSet, dictGet, hk]
    · simp [dictSet, dictGet, if_neg h0, ih]

/-- The key list of a dictionary, in insertion order. -/
def dictKeys (d : List (κ × α)) : List κ := d.map Prod.fst

theorem mem_dictKeys_cons {k k0 : κ} {w : α} {rest : List (κ × α)} :
    k ∈ dictKeys ((k0, w) :: rest) ↔ k = k0 ∨ k ∈ dictKeys rest := by
  simp [dictKeys]

theorem dictKeys_dictSet_mem (d : List (κ × α)) (k : κ) (v : α)
    (h : k ∈ dictKeys d) : dictKeys (dictSet d k v) = dictKeys d := by
  induction d with
  | nil => simp [dictKeys] at h
  | cons p rest ih =>
    obtain ⟨k0, w⟩ := p
    by_cases h0 : k0 = k
    · simp [dictSet, dictKeys, h0]
    · have hrest : k ∈ dictKeys rest := by
        rcases mem_dictKeys_cons.mp h with h1 | h1
        · exact absurd h1.symm h0
        · exact h1
      show dictKeys (if k0 = k then (k, v) :: rest else (k0, w) :: dictSet rest k v)
          = dictKeys ((k0, w) :: rest)
      rw [if_neg h0]
      simp only [dictKeys, List.map_cons]
      rw [show List.map Prod.fst (dictSet rest k v) = List.map Prod.fst rest from ih hrest]

theorem dictKeys_dictSet_not_mem (d : List (κ × α)) (k : κ) (v : α)
    (h : ¬k ∈ dictKeys d) : dictKeys (dictSet d k v) = dictKeys d ++ [k] := by
  induction d with
  | nil => simp [dictSet, dictKeys]
  | cons p rest ih =>
    obtain ⟨k0, w⟩ := p
    have h1 : ¬k = k0 := fun he => h (mem_dictKeys_cons.mpr (Or.inl he))
    have h2 : ¬k ∈ dictKeys rest := fun he => h (mem_dictKeys_cons.mpr (Or.inr he))
    show dictKeys (if k0 = k then (k, v) :: rest else (k0, w) :: dictSet rest k v)
        = dictKeys ((k0, w) :: rest) ++ [k]
    rw [if_neg (fun he => h1 he.symm)]
    simp only [dictKeys, List.map_cons, List.cons_append]
    rw [show List.map Prod.fst (dictSet rest k v) = List.map Prod.fst rest ++ [k] from ih h2]

theorem dictGet_mem_keys (d : List (κ × α)) (k : κ) (v : α)
    (h : dictGet d k = some v) : k ∈ dictKeys d := by
  induction d with
  | nil => simp [dictGet] at h
  | cons p rest ih =>
    obtain ⟨k0, w⟩ := p
    by_cases h0 : k0 = k
    · exact mem_dictKeys_cons.mpr (Or.inl h0.symm)
    · simp only [dictGet, if_neg h0] at h
      exact mem_dictKeys_cons.mpr (Or.inr (ih h))

theorem dictGet_not_mem_keys (d : List (κ × α)) (k : κ)
    (h : dictGet d k = none) : ¬k ∈ dictKeys d := by
  induction d with
  | nil => simp [dictKeys]
  | cons p rest ih =>
    obtain ⟨k0, w⟩ := p
    by_cases h0 : k0 = k
    · simp [dictGet, h0] at h
    · simp only [dictGet, if_neg h0] at h
      intro hmem
      rcases mem_dictKeys_cons.mp hmem with h1 | h1
      · exact h0 h1.symm
      · exact ih h h1

/-- Every value list in `dictSet d k v` is a value list of `d` or is `v`. -/
theorem dictGet_dictSet_cases (d : List (κ × α)) (k k1 : κ) (v w : α)
    (h : dictGet (dictSet d k v) k1 = some w) :
    w = v ∨ dictGet d k1 = some w := by
  by_cases hk : k1 = k
  · subst hk
    rw [dictGet_dictSet_self] at h
    exact Or.inl (Option.some.inj h).symm
  · rw [dictGet_dictSet_ne d k k1 v hk] at h
    exact Or.inr h

end Dict

/-- One step of the lookup-table construction, translated from
`Constraints._unary_lut` / `_binary_lut`: if the key is present and the
constraint is not yet in its list, append it; otherwise (re)set the key's
list to just this constraint. -/
def lutAdd {κ : Type} [DecidableEq κ] (lut : List (κ × List Constraint))
    (k : κ) (c : Constraint) : List (κ × List Constraint) :=
  match dictGet lut k with
  | some l => if c ∈ l then dictSet lut k [c] else dictSet lut k (l ++ [c])
  | none => dictSet lut k [c]

/-- `Constraints._unary_lut`: for each constraint, file it under `var1` and
file its flip under `var2`, in list order. -/
def buildUnary (cs : List Constraint) : List (Nat × List Constraint) :=
  cs.foldl (fun lut c => lutAdd (lutAdd lut c.var1 c) c.var2 c.flip) []

/-- `csp.constraints[v]`: all constraints incident to `v`, rewritten with `v`
first; an unknown variable yields the empty list. -/
def unaryFor (cs : List Constraint) (v : Nat) : List Constraint :=
  (dictGet (buildUnary cs) v).getD []

/-- `Constraints._binary_lut` for an arbitrary constraint list: for each
constraint, file it under `(var1, var2)` and its flip under `(var2, var1)`. -/
def buildBinary (cs : List Constraint) : List ((Nat × Nat) × List Constraint) :=
  cs.foldl (fun lut c => lutAdd (lutAdd lut (c.var1, c.var2) c) (c.var2, c.var1) c.flip) []

/-- `constraints[xi, xj]`: all constraints for the arc `(xi, xj)`; an unknown
arc yields the empty list. -/
def binaryFor (cs : List Constraint) (k : Nat × Nat) : List Constraint :=
  (dictGet (buildBinary cs) k).getD []

/-- `constraints.arcs()`: the binary lookup table's keys in insertion order. -/
def arcsOfList (cs : List Constraint) : List (Nat × Nat) :=
  dictKeys (buildBinary cs)

/-- `Constraint.is_satisfied(val1, val2)`: both values must currently be in
their variables' domains and the relation must hold. -/
def satisfiedB (s : SearchState) (c : Constraint) (v1 v2 : Nat) : Bool :=
  (dom s c.var1).contains v1 && (dom s c.var2).contains v2 && c.rel.holds v1 v2

/-! ### `revise` (p4_ac3.py / p6_solver.py)

The source iterates over `xi.domain` with a live Python iterator while
calling `xi.domain.remove(xVal)` inside the loop; after a removal the
element that slid into the removed slot is skipped.  This is embedded
index-by-index: position `i` is read from the current (possibly shrunk)
domain, and the index advances by one whether or not a removal happened.
The structural fuel starts at the initial domain length, which bounds the
number of iterations exactly. -/

/-- The support check inside `revise`: value `a` of `xi` is supported by some
`b` currently in `xj`'s domain satisfying every constraint on `(xi, xj)`. -/
def hasSupport (cs : List Constraint) (xi xj : Nat) (s : SearchState) (a : Nat) : Bool :=
  (dom s xj).any fun b => (binaryFor cs (xi, xj)).all fun c => satisfiedB s c a b

def reviseLoop (cs : List Constraint) (xi xj : Nat) :
    Nat → Nat → Bool → SearchState → Bool × SearchState
  | 0, _, revised, s => (revised, s)
  | fuel + 1, i, revised, s =>
    let d := dom s xi
    if i < d.length then
      let a := d.getD i 0
      if hasSupport cs xi xj s a then
        reviseLoop cs xi xj fuel (i + 1) revised s
      else
        reviseLoop cs xi xj fuel (i + 1) true ⟨s.doms.set xi (d.erase a), s.stack⟩
    else
      (revised, s)

/-- `revise(csp, xi, xj)`: returns whether anything was removed together with
the updated state. -/
def revise (cs : List Constraint) (xi xj : Nat) (s : SearchState) : Bool × SearchState :=
  reviseLoop cs xi xj (dom s xi).length 0 false s

/-! ### `ac3` (p4_ac3.py, p6_solver.py) and the claim-side textbook rule

Both sources pop arcs FIFO, call `revise`, fail on an emptied domain and
otherwise re-enqueue `csp.constraints[arc[0]].arcs()` filtered by a skip
condition; they differ in the skip condition and in which domains the
emptiness test looks at.  The spec's step 4 (re-enqueue every arc incident
to xi other than the arc just processed) is embedded separately as
`ac3LoopClaim` for comparison. -/

/-- The arcs p4's `ac3` re-enqueues after revising `arc`: it skips any
neighbor arc touching `arc[0]` — which is every arc in
`constraints[arc[0]].arcs()`. -/
def requeueP4 (cs : List Constraint) (arc : Nat × Nat) : List (Nat × Nat) :=
  (arcsOfList (unaryFor cs arc.1)).filter fun nb => !(nb.1 == arc.1 || nb.2 == arc.1)

/-- The arcs p6's `ac3` re-enqueues after revising `arc`: it skips any
neighbor arc touching `arc[1]`, i.e. both orientations of the arc just
processed. -/
def requeueP6 (cs : List Constraint) (arc : Nat × Nat) : List (Nat × Nat) :=
  (arcsOfList (unaryFor cs arc.1)).filter fun nb => !(nb.1 == arc.2 || nb.2 == arc.2)

/-- The re-enqueue set required by the claim and by §4.3 step 4 of the spec:
every arc incident to `arc[0]` other than the arc just processed. -/
def requeueClaim (cs : List Constraint) (arc : Nat × Nat) : List (Nat × Nat) :=
  (arcsOfList (unaryFor cs arc.1)).filter fun nb => nb != arc

/-- p4_ac3.py's `ac3` loop (emptiness test on `arc[0]` only, skip condition
on `arc[0]`). -/
def ac3LoopP4 (cs : List Constraint) : Nat → List (Nat × Nat) → SearchState → Bool × SearchState
  | 0, _, s => (true, s)
  | _ + 1, [], s => (true, s)
  | fuel + 1, arc :: rest, s =>
    if (revise cs arc.1 arc.2 s).1 then
      if (dom (revise cs arc.1 arc.2 s).2 arc.1).length == 0 then
        (false, (revise cs arc.1 arc.2 s).2)
      else ac3LoopP4 cs fuel (rest ++ requeueP4 cs arc) (revise cs arc.1 arc.2 s).2
    else ac3LoopP4 cs fuel rest (revise cs arc.1 arc.2 s).2

/-- p6_solver.py's `ac3` loop (emptiness test on `arc[0]` or `arc[1]`, skip
condition on `arc[1]`). -/
def ac3LoopP6 (cs : List Constraint) : Nat → List (Nat × Nat) → SearchState → Bool × SearchState
  | 0, _, s => (true, s)
  | _ + 1, [], s => (true, s)
  | fuel + 1, arc :: rest, s =>
    if (revise cs arc.1 arc.2 s).1 then
      if (dom (revise cs arc.1 arc.2 s).2 arc.1).length == 0
          || (dom (revise cs arc.1 arc.2 s).2 arc.2).length == 0 then
        (false, (revise cs arc.1 arc.2 s).2)
      else ac3LoopP6 cs fuel (rest ++ requeueP6 cs arc) (revise cs arc.1 arc.2 s).2
    else ac3LoopP6 cs fuel rest (revise cs arc.1 arc.2 s).2

/-- The AC3 loop as the claim states it: after a revision that leaves
`arc[0]` non-empty, re-enqueue every arc incident to `arc[0]` except the
arc just processed (spec §4.3 steps 2-4).  This definition follows the
claim's words and exists only to be compared with the two source loops. -/
def ac3LoopClaim (cs : List Constraint) : Nat → List (Nat × Nat) → SearchState → Bool × SearchState
  | 0, _, s => (true, s)
  | _ + 1, [], s => (true, s)
  | fuel + 1, arc :: rest, s =>
    if (revise cs arc.1 arc.2 s).1 then
      if (dom (revise cs arc.1 arc.2 s).2 arc.1).length == 0 then
        (false, (revise cs arc.1 arc.2 s).2)
      else ac3LoopClaim cs fuel (rest ++ requeueClaim cs arc) (revise cs arc.1 arc.2 s).2
    else ac3LoopClaim cs fuel rest (revise cs arc.1 arc.2 s).2

/-- p6_solver.py's `ac3(csp, arcs)` with an explicit work list. -/
def ac3 (csp : CSP) (fuel : Nat) (arcs : List (Nat × Nat)) (s : SearchState) :
    Bool × SearchState :=
  ac3LoopP6 csp.constraints fuel arcs s

/-- p6_solver.py's `inference(csp, variable)`:
`ac3(csp, csp.constraints[variable].arcs())`. -/
def inference (csp : CSP) (acFuel : Nat) (v : Nat) (s : SearchState) : Bool × SearchState :=
  ac3 csp acFuel (arcsOfList (unaryFor csp.constraints v)) s

/-! ### Ordering heuristics (p5_ordering.py, duplicated in p6_solver.py) -/

/-- `currentDomain < smallestDomain` where `none` plays the role of the
initial `float("infinity")`. -/
def ltSmall (n : Nat) : Option Nat → Bool
  | none => true
  | some m => decide (n < m)

/-- The MRV scan of `select_unassigned_variable`: `small` is
`smallestDomain` and `tie` is the `unassignedVars` deque. -/
def mrvLoop (s : SearchState) :
    List Nat → Option Nat → List Nat → Option Nat × List Nat
  | [], small, tie => (small, tie)
  | i :: rest, small, tie =>
    if ltSmall (dom s i).length small && (dom s i).length != 1 then
      mrvLoop s rest (some (dom s i).length) [i]
    else if small == some (dom s i).length then
      mrvLoop s rest small (tie ++ [i])
    else
      mrvLoop s rest small tie

/-- `len(csp.constraints[var]) > largestConstraints` where `none` plays the
role of the initial `float("-infinity")`. -/
def gtLargest (n : Nat) : Option Nat → Bool
  | none => true
  | some m => decide (m < n)

/-- The tie-break scan of `select_unassigned_variable`.  `largest` is
`largestConstraints`; the source never updates it inside the loop, and
neither does this embedding, so the comparison succeeds for every
candidate. -/
def tieBreakLoop (cs : List Constraint) :
    List Nat → Option Nat → Option Nat → Option Nat
  | [], _, next => next
  | v :: rest, largest, next =>
    if gtLargest (unaryFor cs v).length largest then
      tieBreakLoop cs rest largest (some v)
    else
      tieBreakLoop cs rest largest next

/-- `select_unassigned_variable(csp)` (p5/p6 version, MRV + intended degree
tie-break).  Returns `none` when the Python code would hit the unbound
`nextVar` (only possible when every variable is assigned). -/
def selectUnassignedVariable (csp : CSP) (s : SearchState) : Option Nat :=
  tieBreakLoop csp.constraints (mrvLoop s (List.range csp.numVars) none []).2 none none

/-- The conflict count of `order_domain_values`: for each arc in
`csp.constraints[variable].arcs()`, add the number of occurrences of the
candidate value in both endpoint domains. -/
def conflictsOf (cs : List Constraint) (s : SearchState) (v value : Nat) : Nat :=
  (arcsOfList (unaryFor cs v)).foldl
    (fun acc nb => acc + (dom s nb.1).count value + (dom s nb.2).count value) 0

/-- Stable insertion of `a` behind every element whose key is not larger;
together with `stableSortByKey` this is a stable ascending sort, matching
Python's stable `sorted(..., key=itemgetter(1))`. -/
def sInsert (key : Nat → Nat) (a : Nat) : List Nat → List Nat
  | [] => [a]
  | b :: bs => if key b ≤ key a then b :: sInsert key a bs else a :: b :: bs

/-- Stable ascending sort by key (insertion sort, processing the list left
to right). -/
def stableSortByKey (key : Nat → Nat) (l : List Nat) : List Nat :=
  l.foldl (fun acc a => sInsert key a acc) []

/-- `order_domain_values(csp, variable)` (p5/p6 version, LCV): the domain
sorted stably by ascending conflict count. -/
def orderDomainValues (csp : CSP) (s : SearchState) (v : Nat) : List Nat :=
  stableSortByKey (conflictsOf csp.constraints s v) (dom s v)

/-! ### Consistency, completeness, assignment extraction and the driver
(p1_is_complete.py, p2_is_consistent.py, p6_solver.py) -/

/-- `is_consistent(csp, variable, value)`: for every constraint incident to
`variable` whose second variable is an assigned variable of the CSP, the
constraint must be satisfied by `value` and that variable's value. -/
def isConsistent (csp : CSP) (s : SearchState) (v value : Nat) : Bool :=
  (unaryFor csp.constraints v).all fun c =>
    if c.var2 < csp.numVars && (dom s c.var2).length == 1 then
      satisfiedB s c value ((dom s c.var2).headD 0)
    else
      true

/-- `is_complete(csp)`: every variable of the CSP is assigned. -/
def isComplete (csp : CSP) (s : SearchState) : Bool :=
  (List.range csp.numVars).all fun i => (dom s i).length == 1

/-- `csp.assignment`: the variable-to-value mapping of all currently
assigned variables, in variable order. -/
def assignmentOf (csp : CSP) (s : SearchState) : List (Nat × Nat) :=
  (List.range csp.numVars).filterMap fun i =>
    if (dom s i).length == 1 then some (i, (dom s i).headD 0) else none

/-- The value loop of p6's `backtrack`: try each candidate value in order;
on a consistent value open a transaction, assign, run inference (its
boolean result is discarded), recurse via `bt`, and either propagate a
non-`False` result or roll back and continue. -/
def tryValues (bt : SearchState → Option (List (Nat × Nat)) × SearchState)
    (csp : CSP) (acFuel v : Nat) :
    List Nat → SearchState → Option (List (Nat × Nat)) × SearchState
  | [], s => (none, s)
  | value :: rest, s =>
    if isConsistent csp s v value then
      match bt (inference csp acFuel v (assignVar (beginTransaction s) v value)).2 with
      | (some a, s4) => (some a, s4)
      | (none, s4) => tryValues bt csp acFuel v rest (rollback s4)
    else
      tryValues bt csp acFuel v rest s

/-- p6's `backtrack(csp)`: returns the assignment dictionary on success and
`False` (here `none`) on failure, threading the mutable state.  The fuel
bounds the recursion depth; exhausted fuel returns failure with the state
untouched. -/
def backtrack (csp : CSP) (acFuel : Nat) :
    Nat → SearchState → Option (List (Nat × Nat)) × SearchState
  | 0, s => (none, s)
  | fuel + 1, s =>
    if isComplete csp s then (some (assignmentOf csp s), s)
    else
      match selectUnassignedVariable csp s with
      | none => (none, s)
      | some v => tryValues (backtrack csp acFuel fuel) csp acFuel v (orderDomainValues csp s v) s

/-- p6's `backtracking_search(csp)`: `if backtrack(csp): return
csp.assignment else: return None`.  A `False` result or an empty (falsy)
assignment dictionary yields `None`; otherwise `csp.assignment` is
recomputed from the final state. -/
def backtrackingSearch (csp : CSP) (acFuel fuel : Nat) (s : SearchState) :
    Option (List (Nat × Nat)) × SearchState :=
  match backtrack csp acFuel fuel s with
  | (some a, s1) => if a.isEmpty then (none, s1) else (some (assignmentOf csp s1), s1)
  | (none, s1) => (none, s1)

/-! ### The checked-inference variant of `backtrack` (claim C9)

Identical to `tryValues`/`backtrack` except that when the inference step
returns `False` it rolls the transaction back immediately and tries the
next value instead of recursing. -/

def tryValuesChecked (bt : SearchState → Option (List (Nat × Nat)) × SearchState)
    (csp : CSP) (acFuel v : Nat) :
    List Nat → SearchState → Option (List (Nat × Nat)) × SearchState
  | [], s => (none, s)
  | value :: rest, s =>
    if isConsistent csp s v value then
      if (inference csp acFuel v (assignVar (beginTransaction s) v value)).1 then
        match bt (inference csp acFuel v (assignVar (beginTransaction s) v value)).2 with
        | (some a, s4) => (some a, s4)
        | (none, s4) => tryValuesChecked bt csp acFuel v rest (rollback s4)
      else
        tryValuesChecked bt csp acFuel v rest
          (rollback (inference csp acFuel v (assignVar (beginTransaction s) v value)).2)
    else
      tryValuesChecked bt csp acFuel v rest s

def backtrackChecked (csp : CSP) (acFuel : Nat) :
    Nat → SearchState → Option (List (Nat × Nat)) × SearchState
  | 0, s => (none, s)
  | fuel + 1, s =>
    if isComplete csp s then (some (assignmentOf csp s), s)
    else
      match selectUnassignedVariable csp s with
      | none => (none, s)
      | some v =>
        tryValuesChecked (backtrackChecked csp acFuel fuel) csp acFuel v
          (orderDomainValues csp s v) s

/-! ### Claim-side comparison definitions

Each of the following follows the words of a claim (not the source) and
exists only to be compared against the corresponding source embedding. -/

/-- The revised domain of `xi` as claim C3 describes it: keep exactly the
values `a` for which some value `b` currently in `xj`'s domain satisfies
SOME constraint on `(xi, xj)`. -/
def claimReviseDom (cs : List Constraint) (xi xj : Nat) (s : SearchState) : List Nat :=
  (dom s xi).filter fun a =>
    (dom s xj).any fun b => (binaryFor cs (xi, xj)).any fun c => satisfiedB s c a b

/-- First-occurrence deduplication, used to read off the set of neighboring
variables in encounter order. -/
def firstOccs (l : List Nat) : List Nat :=
  l.foldl (fun acc w => if w ∈ acc then acc else acc ++ [w]) []

/-- The neighboring variables of `v`: the other endpoint of each arc
incident to `v`, each neighbor counted once (claim C6's "all neighboring
variables"). -/
def neighborsOf (cs : List Constraint) (v : Nat) : List Nat :=
  firstOccs ((arcsOfList (unaryFor cs v)).map fun nb => if nb.1 == v then nb.2 else nb.1)

/-- Claim C6's conflict count: the number of values across all neighboring
variables' domains that equal the candidate value. -/
def claimConflicts (cs : List Constraint) (s : SearchState) (v value : Nat) : Nat :=
  ((neighborsOf cs v).map fun w => (dom s w).count value).sum

/-- Claim C6's value ordering: the domain sorted stably by ascending
claim-side conflict count. -/
def claimOrder (csp : CSP) (s : SearchState) (v : Nat) : List Nat :=
  stableSortByKey (claimConflicts csp.constraints s v) (dom s v)

/-- Claim C4's validity requirement on a returned mapping: every variable of
every constraint is mapped and the constraint's predicate holds on the two
mapped values. -/
def assignmentValid (csp : CSP) (m : List (Nat × Nat)) : Bool :=
  csp.constraints.all fun c =>
    match dictGet m c.var1, dictGet m c.var2 with
    | some v1, some v2 => c.rel.holds v1 v2
    | _, _ => false

/-! ### Concrete instances used by the counterexamples and witnesses -/

/-- Two variables linked by `var0 > var1`, domains `[0,5]` and `[10,1]`. -/
def cspC2 : CSP := ⟨2, [⟨0, 1, .gt⟩]⟩

def sC2 : SearchState := ⟨[[0, 5], [10, 1]], []⟩

/-- Two constraints on the same arc (`ne` and `lt`, as a Futoshiki cell pair
with both an all-different and an inequality constraint), domains `[2]`
and `[1]`. -/
def csC3 : List Constraint := [⟨0, 1, .ne⟩, ⟨0, 1, .lt⟩]

def sC3 : SearchState := ⟨[[2], [1]], []⟩

/-- Two variables pre-assigned to the same value under a `ne` constraint. -/
def cspC4 : CSP := ⟨2, [⟨0, 1, .ne⟩]⟩

def sC4 : SearchState := ⟨[[1], [1]], []⟩

/-- Three variables, none assigned: `var1 > var2` and `var0 < var1`, domains
`[7,8]`, `[1,2,7]` and `[5,6]`.  The solver assigns `var2 := 5`, inference
prunes the other two domains to the singletons `8` and `7` (the `revise`
iteration bug leaves unsupported survivors), and the search accepts the
completed state without ever checking `8 < 7`. -/
def cspC4b : CSP := ⟨3, [⟨1, 2, .gt⟩, ⟨0, 1, .lt⟩]⟩

def sC4b : SearchState := ⟨[[7, 8], [1, 2, 7], [5, 6]], []⟩

/-- Three variables with domain sizes `2, 2, 3`; variable `0` is involved in
two constraints, variable `1` in one. -/
def cspC5 : CSP := ⟨3, [⟨0, 2, .ne⟩, ⟨0, 1, .ne⟩]⟩

def sC5 : SearchState := ⟨[[1, 2], [1, 2], [1, 2, 3]], []⟩

/-- One `ne` constraint; variable `0`'s domain `[1,2,2]` has a duplicate. -/
def cspC6 : CSP := ⟨2, [⟨0, 1, .ne⟩]⟩

def sC6 : SearchState := ⟨[[1, 2, 2], [1]], []⟩

/-! ### Claim C2 -/

/-- C2.  After popping the arc `(0, 1)` and a revision that removes `0` from
variable `0`'s domain and leaves it non-empty, the claim's rule re-enqueues
the remaining incident arc `(1, 0)`; p4's `ac3` re-enqueues nothing (its
skip condition excludes every arc incident to the revised variable) and
p6's also re-enqueues nothing (its skip condition also excludes the
reverse of the processed arc).  Consequently the full runs diverge: the
claim's rule re-checks `(1, 0)` and prunes the now-unsupported `10` from
variable `1`'s domain, while both source loops terminate with `10` still
present. -/
theorem ac3_requeue_divergence_c2 :
    (revise cspC2.constraints 0 1 sC2).1 = true ∧
    dom (revise cspC2.constraints 0 1 sC2).2 0 = [5] ∧
    requeueP4 cspC2.constraints (0, 1) = [] ∧
    requeueP6 cspC2.constraints (0, 1) = [] ∧
    requeueClaim cspC2.constraints (0, 1) = [(1, 0)] ∧
    ac3LoopP4 cspC2.constraints 20 [(0, 1)] sC2 = (true, ⟨[[5], [10, 1]], []⟩) ∧
    ac3LoopP6 cspC2.constraints 20 [(0, 1)] sC2 = (true, ⟨[[5], [10, 1]], []⟩) ∧
    ac3LoopClaim cspC2.constraints 20 [(0, 1)] sC2 = (true, ⟨[[5], [1]], []⟩) := by
  refine ⟨rfl, rfl, rfl, rfl, rfl, rfl, rfl, rfl⟩

/-! ### Claim C3 -/

/-- C3 counterexample.  On the arc `(0, 1)` carrying the two constraints
`ne` and `lt`, with domains `[2]` and `[1]`: value `2` has the partner `1`
satisfying SOME constraint (`2 ≠ 1`), so the claim says `2` is not removed;
the source requires every constraint on the arc to be satisfied
(`satisfied` starts `True` and is cleared by any failing constraint), finds
`2 < 1` false, and removes `2`. -/
theorem revise_not_claim_rule_c3 :
    dom (revise csC3 0 1 sC3).2 0 = [] ∧
    claimReviseDom csC3 0 1 sC3 = [2] ∧
    dom (revise csC3 0 1 sC3).2 0 ≠ claimReviseDom csC3 0 1 sC3 := by
  refine ⟨rfl, rfl, by decide⟩

/-! ### Claim C5 -/

/-- C5.  Variables `0` and `1` are both unassigned and tie on minimal domain
size, variable `0` is involved in strictly more constraints, yet
`select_unassigned_variable` returns variable `1`: `largestConstraints` is
never updated inside the final loop, so every tied candidate overwrites
`nextVar` and the LAST member of the MRV tie set wins, not the one with the
greatest constraint count. -/
theorem select_ignores_degree_c5 :
    selectUnassignedVariable cspC5 sC5 = some 1 ∧
    isAssigned sC5 0 = false ∧
    isAssigned sC5 1 = false ∧
    (dom sC5 0).length = (dom sC5 1).length ∧
    (unaryFor cspC5.constraints 1).length < (unaryFor cspC5.constraints 0).length := by
  refine ⟨rfl, rfl, rfl, rfl, by decide⟩

/-! ### Claim C6 -/

/-- C6 counterexample.  With domain `[1, 2, 2]` for variable `0` and
neighbor domain `[1]`: the claim's conflict counts are `1` for value `1`
and `0` for value `2`, so the claim orders the domain `[2, 2, 1]`; the
source counts every arc in both orientations and both endpoint domains
(including the variable's own), giving the equal count `4` to every
candidate, and its stable sort returns `[1, 2, 2]`. -/
theorem lcv_order_duplicates_c6 :
    orderDomainValues cspC6 sC6 0 = [1, 2, 2] ∧
    claimOrder cspC6 sC6 0 = [2, 2, 1] ∧
    orderDomainValues cspC6 sC6 0 ≠ claimOrder cspC6 sC6 0 := by
  refine ⟨rfl, rfl, by decide⟩


/-! ### Structural facts about the lookup tables -/

section LutFacts

variable {κ : Type} [DecidableEq κ]

/-- Case characterization of `lutAdd`: it either appends the constraint to
the existing list of its key or (re)binds the key to the singleton. -/
theorem lutAdd_eq (lut : List (κ × List Constraint)) (k : κ) (c : Constraint) :
    (∃ l0, dictGet lut k = some l0 ∧ ¬c ∈ l0 ∧ lutAdd lut k c = dictSet lut k (l0 ++ [c])) ∨
    lutAdd lut k c = dictSet lut k [c] := by
  unfold lutAdd
  cases hget0 : dictGet lut k with
  | none => exact Or.inr rfl
  | some l0 =>
    by_cases hmem : c ∈ l0
    · refine Or.inr ?_
      show (if c ∈ l0 then dictSet lut k [c] else dictSet lut k (l0 ++ [c]))
          = dictSet lut k [c]
      rw [if_pos hmem]
    · refine Or.inl ⟨l0, rfl, hmem, ?_⟩
      show (if c ∈ l0 then dictSet lut k [c] else dictSet lut k (l0 ++ [c]))
          = dictSet lut k (l0 ++ [c])
      rw [if_neg hmem]

/-- Looking a key up after `dictSet` yields the new value at that key and
the old dictionary's value elsewhere. -/
theorem dictSet_lookup {α : Type} (d : List (κ × α)) (k k1 : κ) (v w : α)
    (h : dictGet (dictSet d k v) k1 = some w) :
    (k1 = k ∧ w = v) ∨ (k1 ≠ k ∧ dictGet d k1 = some w) := by
  by_cases hk : k1 = k
  · subst hk
    rw [dictGet_dictSet_self] at h
    exact Or.inl ⟨rfl, (Option.some.inj h).symm⟩
  · rw [dictGet_dictSet_ne _ _ _ _ hk] at h
    exact Or.inr ⟨hk, h⟩

/-- `lutAdd` preserves any per-key entry invariant as long as the inserted
constraint satisfies it at its key. -/
theorem lutAdd_entries (P : κ → Constraint → Prop) (lut : List (κ × List Constraint))
    (k : κ) (c : Constraint) (hc : P k c)
    (H : ∀ k1 l, dictGet lut k1 = some l → ∀ c1 ∈ l, P k1 c1) :
    ∀ k1 l, dictGet (lutAdd lut k c) k1 = some l → ∀ c1 ∈ l, P k1 c1 := by
  intro k1 l hget c1 hc1
  rcases lutAdd_eq lut k c with ⟨l0, hget0, _, heq⟩ | heq
  · rw [heq] at hget
    rcases dictSet_lookup _ _ _ _ _ hget with ⟨hk, hl⟩ | ⟨_, hl⟩
    · subst hk
      subst hl
      rcases List.mem_append.mp hc1 with h1 | h1
      · exact H k1 l0 hget0 c1 h1
      · exact (List.mem_singleton.mp h1) ▸ hc
    · exact H k1 l hl c1 hc1
  · rw [heq] at hget
    rcases dictSet_lookup _ _ _ _ _ hget with ⟨hk, hl⟩ | ⟨_, hl⟩
    · subst hk
      subst hl
      exact (List.mem_singleton.mp hc1) ▸ hc
    · exact H k1 l hl c1 hc1

/-- `lutAdd` introduces at most the key it was given. -/
theorem dictKeys_lutAdd (lut : List (κ × List Constraint)) (k k1 : κ) (c : Constraint)
    (h : k1 ∈ dictKeys (lutAdd lut k c)) : k1 ∈ dictKeys lut ∨ k1 = k := by
  have base : ∀ l : List Constraint, k1 ∈ dictKeys (dictSet lut k l) →
      k1 ∈ dictKeys lut ∨ k1 = k := by
    intro l hl
    by_cases hk : k ∈ dictKeys lut
    · rw [dictKeys_dictSet_mem _ _ _ hk] at hl
      exact Or.inl hl
    · rw [dictKeys_dictSet_not_mem _ _ _ hk] at hl
      rcases List.mem_append.mp hl with h1 | h1
      · exact Or.inl h1
      · exact Or.inr (List.mem_singleton.mp h1)
  rcases lutAdd_eq lut k c with ⟨l0, _, _, heq⟩ | heq
  · rw [heq] at h
    exact base _ h
  · rw [heq] at h
    exact base _ h

end LutFacts

/-- Entry invariant for the unary lookup table. -/
theorem buildUnary_entries (P : Nat → Constraint → Prop) (cs : List Constraint)
    (h : ∀ c ∈ cs, P c.var1 c ∧ P c.var2 c.flip) :
    ∀ k l, dictGet (buildUnary cs) k = some l → ∀ c1 ∈ l, P k c1 := by
  unfold buildUnary
  suffices haux : ∀ (l : List Constraint) (lut : List (Nat × List Constraint)),
      (∀ c ∈ l, P c.var1 c ∧ P c.var2 c.flip) →
      (∀ k l0, dictGet lut k = some l0 → ∀ c1 ∈ l0, P k c1) →
      ∀ k l0, dictGet (l.foldl (fun lut c => lutAdd (lutAdd lut c.var1 c) c.var2 c.flip) lut) k
        = some l0 → ∀ c1 ∈ l0, P k c1 by
    exact haux cs [] h (by intro k l0 hget; cases hget)
  intro l
  induction l with
  | nil => intro lut _ H; exact H
  | cons c rest ih =>
    intro lut hl H
    simp only [List.foldl_cons]
    refine ih _ (fun c1 hc1 => hl c1 (List.mem_cons_of_mem _ hc1)) ?_
    have hc := hl c (List.mem_cons_self _ _)
    exact lutAdd_entries P _ _ _ hc.2 (lutAdd_entries P _ _ _ hc.1 H)

/-- Entry invariant for the binary lookup table. -/
theorem buildBinary_entries (P : Nat × Nat → Constraint → Prop) (cs : List Constraint)
    (h : ∀ c ∈ cs, P (c.var1, c.var2) c ∧ P (c.var2, c.var1) c.flip) :
    ∀ k l, dictGet (buildBinary cs) k = some l → ∀ c1 ∈ l, P k c1 := by
  unfold buildBinary
  suffices haux : ∀ (l : List Constraint) (lut : List ((Nat × Nat) × List Constraint)),
      (∀ c ∈ l, P (c.var1, c.var2) c ∧ P (c.var2, c.var1) c.flip) →
      (∀ k l0, dictGet lut k = some l0 → ∀ c1 ∈ l0, P k c1) →
      ∀ k l0, dictGet (l.foldl
          (fun lut c => lutAdd (lutAdd lut (c.var1, c.var2) c) (c.var2, c.var1) c.flip) lut) k
        = some l0 → ∀ c1 ∈ l0, P k c1 by
    exact haux cs [] h (by intro k l0 hget; cases hget)
  intro l
  induction l with
  | nil => intro lut _ H; exact H
  | cons c rest ih =>
    intro lut hl H
    simp only [List.foldl_cons]
    refine ih _ (fun c1 hc1 => hl c1 (List.mem_cons_of_mem _ hc1)) ?_
    have hc := hl c (List.mem_cons_self _ _)
    exact lutAdd_entries P _ _ _ hc.2 (lutAdd_entries P _ _ _ hc.1 H)

/-- Every constraint filed under `v` in the unary table has `v` as its first
variable. -/
theorem unaryFor_var1 (cs : List Constraint) (v : Nat) :
    ∀ c ∈ unaryFor cs v, c.var1 = v := by
  intro c hc
  unfold unaryFor at hc
  cases hget : dictGet (buildUnary cs) v with
  | none => rw [hget] at hc; cases hc
  | some l =>
    rw [hget] at hc
    exact buildUnary_entries (fun k c1 => c1.var1 = k) cs
      (fun c0 _ => ⟨rfl, rfl⟩) v l hget c hc

/-- Every constraint filed under `v` in the unary table is an original
constraint or the flip of one. -/
theorem unaryFor_origin (cs : List Constraint) (v : Nat) :
    ∀ c ∈ unaryFor cs v, ∃ c0 ∈ cs, c = c0 ∨ c = c0.flip := by
  intro c hc
  unfold unaryFor at hc
  cases hget : dictGet (buildUnary cs) v with
  | none => rw [hget] at hc; cases hc
  | some l =>
    rw [hget] at hc
    exact buildUnary_entries (fun _ c1 => ∃ c0 ∈ cs, c1 = c0 ∨ c1 = c0.flip) cs
      (fun c0 h0 => ⟨⟨c0, h0, Or.inl rfl⟩, ⟨c0, h0, Or.inr rfl⟩⟩) v l hget c hc

/-- Every constraint filed under the arc `(xi, xj)` in the binary table has
exactly that orientation. -/
theorem binaryFor_key (cs : List Constraint) (xi xj : Nat) :
    ∀ c ∈ binaryFor cs (xi, xj), c.var1 = xi ∧ c.var2 = xj := by
  intro c hc
  unfold binaryFor at hc
  cases hget : dictGet (buildBinary cs) (xi, xj) with
  | none => rw [hget] at hc; cases hc
  | some l =>
    rw [hget] at hc
    have := buildBinary_entries (fun k c1 => c1.var1 = k.1 ∧ c1.var2 = k.2) cs
      (fun c0 _ => ⟨⟨rfl, rfl⟩, ⟨rfl, rfl⟩⟩) (xi, xj) l hget c hc
    exact this

/-- Every arc of a constraint list is one of its constraints' orientations. -/
theorem arcsOfList_origin (cs : List Constraint) (arc : Nat × Nat)
    (h : arc ∈ arcsOfList cs) :
    ∃ c ∈ cs, arc = (c.var1, c.var2) ∨ arc = (c.var2, c.var1) := by
  unfold arcsOfList buildBinary at h
  suffices haux : ∀ (l : List Constraint) (lut : List ((Nat × Nat) × List Constraint)),
      arc ∈ dictKeys (l.foldl
        (fun lut c => lutAdd (lutAdd lut (c.var1, c.var2) c) (c.var2, c.var1) c.flip) lut) →
      arc ∈ dictKeys lut ∨ ∃ c ∈ l, arc = (c.var1, c.var2) ∨ arc = (c.var2, c.var1) by
    rcases haux cs [] h with h1 | h1
    · cases h1
    · exact h1
  intro l
  induction l with
  | nil => intro lut hl; exact Or.inl hl
  | cons c rest ih =>
    intro lut hl
    simp only [List.foldl_cons] at hl
    rcases ih _ hl with h1 | h1
    · rcases dictKeys_lutAdd _ _ _ _ h1 with h2 | h2
      · rcases dictKeys_lutAdd _ _ _ _ h2 with h3 | h3
        · exact Or.inl h3
        · exact Or.inr ⟨c, List.mem_cons_self _ _, Or.inl h3⟩
      · exact Or.inr ⟨c, List.mem_cons_self _ _, Or.inr h2⟩
    · rcases h1 with ⟨c0, hc0, h2⟩
      exact Or.inr ⟨c0, List.mem_cons_of_mem _ hc0, h2⟩

/-! ### Domain-update lemmas -/

theorem getD_set_self {α : Type} (l : List α) (i : Nat) (x dflt : α)
    (h : i < l.length) : (l.set i x).getD i dflt = x := by
  induction l generalizing i with
  | nil => simp at h
  | cons a rest ih =>
    cases i with
    | zero => rfl
    | succ n => exact ih n (Nat.lt_of_succ_lt_succ h)

theorem getD_set_ne {α : Type} (l : List α) (i j : Nat) (x dflt : α)
    (h : i ≠ j) : (l.set i x).getD j dflt = l.getD j dflt := by
  induction l generalizing i j with
  | nil => rfl
  | cons a rest ih =>
    cases i with
    | zero =>
      cases j with
      | zero => exact absurd rfl h
      | succ m => rfl
    | succ n =>
      cases j with
      | zero => rfl
      | succ m => exact ih n m (fun he => h (by rw [he]))

theorem dom_update_self (doms : List (List Nat)) (st : List (List (List Nat)))
    (i : Nat) (d : List Nat) (h : i < doms.length) :
    dom ⟨doms.set i d, st⟩ i = d :=
  getD_set_self doms i d [] h

theorem dom_update_ne (doms : List (List Nat)) (st : List (List (List Nat)))
    (i j : Nat) (d : List Nat) (h : i ≠ j) :
    dom ⟨doms.set i d, st⟩ j = dom ⟨doms, st⟩ j :=
  getD_set_ne doms i j d [] h

/-- A variable with a non-empty domain is a real index into `doms`. -/
theorem lt_length_of_dom_ne_nil (s : SearchState) (i : Nat) (h : dom s i ≠ []) :
    i < s.doms.length := by
  by_contra hli
  exact h (List.getD_eq_default _ _ (Nat.le_of_not_lt hli))

/-! ### Claim C3, amended: soundness of `revise` with all-constraint support -/

/-- Inside `reviseLoop`, a value of `xi` that has a partner `b` in `xj`'s
domain satisfying every constraint on the arc is never removed: each
removal erases a value whose support check failed, which a fully supported
value's cannot (the domain-membership conjuncts of `is_satisfied` hold
because the checked value is read from the current domain and `xj`'s
domain is untouched while `xi ≠ xj`). -/
theorem reviseLoop_keeps_supported (cs : List Constraint) (xi xj : Nat)
    (hne : xi ≠ xj) (a b : Nat)
    (hrel : ∀ c ∈ binaryFor cs (xi, xj), c.rel.holds a b = true) :
    ∀ (fuel i : Nat) (revised : Bool) (s : SearchState),
      a ∈ dom s xi → b ∈ dom s xj →
      a ∈ dom (reviseLoop cs xi xj fuel i revised s).2 xi := by
  intro fuel
  induction fuel with
  | zero => intro i revised s ha _; exact ha
  | succ fuel ih =>
    intro i revised s ha hb
    show a ∈ dom (reviseLoop cs xi xj (fuel + 1) i revised s).2 xi
    rw [reviseLoop]
    simp only
    by_cases hi : i < (dom s xi).length
    · rw [if_pos hi]
      set e := (dom s xi).getD i 0 with he
      have hmeme : e ∈ dom s xi := by
        rw [he, List.getD_eq_getElem _ _ hi]
        exact List.getElem_mem hi
      by_cases hsup : hasSupport cs xi xj s e = true
      · rw [if_pos hsup]
        exact ih (i + 1) revised s ha hb
      · rw [if_neg hsup]
        have hea : e ≠ a := by
          intro hea
          apply hsup
          unfold hasSupport
          rw [List.any_eq_true]
          refine ⟨b, hb, ?_⟩
          show ((binaryFor cs (xi, xj)).all fun c => satisfiedB s c e b) = true
          rw [List.all_eq_true]
          intro c hc
          show satisfiedB s c e b = true
          obtain ⟨h1, h2⟩ := binaryFor_key cs xi xj c hc
          simp only [satisfiedB, h1, h2, hea, Bool.and_eq_true]
          exact ⟨⟨List.elem_eq_true_of_mem ha, List.elem_eq_true_of_mem hb⟩, hrel c hc⟩
        have hxi : xi < s.doms.length :=
          lt_length_of_dom_ne_nil s xi (by
            intro hnil
            rw [hnil] at hmeme
            cases hmeme)
        have hdom1 : dom ⟨s.doms.set xi ((dom s xi).erase e), s.stack⟩ xi
            = (dom s xi).erase e := dom_update_self _ _ _ _ hxi
        have hdom2 : dom ⟨s.doms.set xi ((dom s xi).erase e), s.stack⟩ xj
            = dom s xj := by
          have := dom_update_ne s.doms s.stack xi xj ((dom s xi).erase e) hne
          exact this
        refine ih (i + 1) true _ ?_ ?_
        · rw [hdom1]
          exact (List.mem_erase_of_ne (Ne.symm hea)).mpr ha
        · rw [hdom2]
          exact hb
    · rw [if_neg hi]
      exact ha

/-- C3, amended.  In `revise(xi, xj)` with `xi ≠ xj`, a value `a` is removed
from `xi`'s domain only if no value `b` currently in `xj`'s domain
satisfies EVERY constraint on `(xi, xj)` with `(a, b)`; equivalently, a
value with a partner satisfying all constraints on the arc is never
removed.  (The original claim fails in both directions: support in the
source is all-constraints rather than some-constraint, and a value without
support can survive because removal during iteration skips the following
element.) -/
theorem revise_keeps_supported_c3 (cs : List Constraint) (xi xj : Nat)
    (s : SearchState) (a b : Nat) (hne : xi ≠ xj)
    (ha : a ∈ dom s xi) (hb : b ∈ dom s xj)
    (hrel : ∀ c ∈ binaryFor cs (xi, xj), c.rel.holds a b = true) :
    a ∈ dom (revise cs xi xj s).2 xi :=
  reviseLoop_keeps_supported cs xi xj hne a b hrel (dom s xi).length 0 false s ha hb

/-- Witness for the amended C3 on a concrete instance: on the arc `(0, 1)`
with constraints `ne` and `lt` and domains `[2, 3]`, `[4]`, the value `3`
is fully supported by `4` and survives the call. -/
theorem revise_keeps_supported_c3_witness :
    3 ∈ dom (revise csC3 0 1 ⟨[[2, 3], [4]], []⟩).2 0 :=
  revise_keeps_supported_c3 csC3 0 1 ⟨[[2, 3], [4]], []⟩ 3 4
    (by decide) (by decide) (by decide) (by decide)

/-! ### Stack preservation: propagation never touches the transaction log -/

theorem reviseLoop_stack (cs : List Constraint) (xi xj : Nat) :
    ∀ (fuel i : Nat) (revised : Bool) (s : SearchState),
      (reviseLoop cs xi xj fuel i revised s).2.stack = s.stack := by
  intro fuel
  induction fuel with
  | zero => intro i revised s; rfl
  | succ fuel ih =>
    intro i revised s
    rw [reviseLoop]
    simp only
    by_cases hi : i < (dom s xi).length
    · rw [if_pos hi]
      by_cases hsup : hasSupport cs xi xj s ((dom s xi).getD i 0) = true
      · rw [if_pos hsup]
        exact ih (i + 1) revised s
      · rw [if_neg hsup]
        exact ih (i + 1) true _
    · rw [if_neg hi]

theorem revise_stack (cs : List Constraint) (xi xj : Nat) (s : SearchState) :
    (revise cs xi xj s).2.stack = s.stack :=
  reviseLoop_stack cs xi xj (dom s xi).length 0 false s

theorem ac3LoopP6_stack (cs : List Constraint) :
    ∀ (fuel : Nat) (q : List (Nat × Nat)) (s : SearchState),
      (ac3LoopP6 cs fuel q s).2.stack = s.stack := by
  intro fuel
  induction fuel with
  | zero => intro q s; rfl
  | succ fuel ih =>
    intro q s
    match q with
    | [] => rfl
    | arc :: rest =>
      rw [ac3LoopP6]
      by_cases hrev : (revise cs arc.1 arc.2 s).1 = true
      · rw [if_pos hrev]
        by_cases hempty : ((dom (revise cs arc.1 arc.2 s).2 arc.1).length == 0
            || (dom (revise cs arc.1 arc.2 s).2 arc.2).length == 0) = true
        · rw [if_pos hempty]
          exact revise_stack cs arc.1 arc.2 s
        · rw [if_neg hempty]
          rw [ih _ _]
          exact revise_stack cs arc.1 arc.2 s
      · rw [if_neg hrev]
        rw [ih _ _]
        exact revise_stack cs arc.1 arc.2 s

theorem inference_stack (csp : CSP) (acFuel v : Nat) (s : SearchState) :
    (inference csp acFuel v s).2.stack = s.stack :=
  ac3LoopP6_stack csp.constraints acFuel _ s

/-- Rolling back the transaction opened around a trial assignment restores
the exact pre-transaction state, whatever the assignment and the inference
step did to the domains. -/
theorem rollback_after_trial (csp : CSP) (acFuel v value : Nat) (s : SearchState) :
    rollback ((inference csp acFuel v (assignVar (beginTransaction s) v value)).2) = s := by
  have h : ((inference csp acFuel v (assignVar (beginTransaction s) v value)).2).stack
      = s.doms :: s.stack := by
    rw [inference_stack]
    rfl
  rw [rollback_of_stack _ _ _ h]

/-! ### The driver restores state on failure and is complete on success -/

theorem tryValues_none_restore (csp : CSP) (acFuel v : Nat)
    (bt : SearchState → Option (List (Nat × Nat)) × SearchState)
    (Hbt : ∀ s, (bt s).1 = none → (bt s).2 = s) :
    ∀ (values : List Nat) (s : SearchState),
      (tryValues bt csp acFuel v values s).1 = none →
      (tryValues bt csp acFuel v values s).2 = s := by
  intro values
  induction values with
  | nil => intro s _; rfl
  | cons value rest ih =>
    intro s hnone
    rw [tryValues] at hnone ⊢
    by_cases hcons : isConsistent csp s v value = true
    · rw [if_pos hcons] at hnone ⊢
      rcases hbt : bt (inference csp acFuel v (assignVar (beginTransaction s) v value)).2
        with ⟨r, s4⟩
      rw [hbt] at hnone
      cases r with
      | some a0 => exact absurd hnone (by simp)
      | none =>
        have hs4 : s4 = (inference csp acFuel v (assignVar (beginTransaction s) v value)).2 := by
          have h1 := Hbt (inference csp acFuel v (assignVar (beginTransaction s) v value)).2
          rw [hbt] at h1
          exact h1 rfl
        have hroll : rollback s4 = s := by
          rw [hs4]
          exact rollback_after_trial csp acFuel v value s
        have hnone2 : (tryValues bt csp acFuel v rest (rollback s4)).1 = none := hnone
        show (tryValues bt csp acFuel v rest (rollback s4)).2 = s
        rw [hroll] at hnone2 ⊢
        exact ih s hnone2
    · rw [if_neg hcons] at hnone ⊢
      exact ih s hnone

theorem backtrack_none_restore (csp : CSP) (acFuel : Nat) :
    ∀ (fuel : Nat) (s : SearchState),
      (backtrack csp acFuel fuel s).1 = none → (backtrack csp acFuel fuel s).2 = s := by
  intro fuel
  induction fuel with
  | zero => intro s _; rfl
  | succ fuel ih =>
    intro s hnone
    rw [backtrack] at hnone ⊢
    by_cases hcomp : isComplete csp s = true
    · rw [if_pos hcomp] at hnone ⊢
    · rw [if_neg hcomp] at hnone ⊢
      cases hsel : selectUnassignedVariable csp s with
      | none => rfl
      | some v =>
        rw [hsel] at hnone
        have hnone2 : (tryValues (backtrack csp acFuel fuel) csp acFuel v
            (orderDomainValues csp s v) s).1 = none := hnone
        show (tryValues (backtrack csp acFuel fuel) csp acFuel v
            (orderDomainValues csp s v) s).2 = s
        exact tryValues_none_restore csp acFuel v _ ih _ s hnone2

theorem tryValues_some_complete (csp : CSP) (acFuel v : Nat)
    (bt : SearchState → Option (List (Nat × Nat)) × SearchState)
    (Hbt : ∀ s a s1, bt s = (some a, s1) →
      isComplete csp s1 = true ∧ a = assignmentOf csp s1) :
    ∀ (values : List Nat) (s : SearchState) (a : List (Nat × Nat)) (s1 : SearchState),
      tryValues bt csp acFuel v values s = (some a, s1) →
      isComplete csp s1 = true ∧ a = assignmentOf csp s1 := by
  intro values
  induction values with
  | nil => intro s a s1 h; cases h
  | cons value rest ih =>
    intro s a s1 h
    rw [tryValues] at h
    by_cases hcons : isConsistent csp s v value = true
    · rw [if_pos hcons] at h
      rcases hbt : bt (inference csp acFuel v (assignVar (beginTransaction s) v value)).2
        with ⟨r, s4⟩
      rw [hbt] at h
      cases r with
      | some a0 =>
        have h2 : ((some a0, s4) : Option (List (Nat × Nat)) × SearchState) = (some a, s1) := h
        cases h2
        exact Hbt _ a s1 hbt
      | none =>
        have h2 : tryValues bt csp acFuel v rest (rollback s4) = (some a, s1) := h
        exact ih _ a s1 h2
    · rw [if_neg hcons] at h
      exact ih s a s1 h

theorem backtrack_some_complete (csp : CSP) (acFuel : Nat) :
    ∀ (fuel : Nat) (s : SearchState) (a : List (Nat × Nat)) (s1 : SearchState),
      backtrack csp acFuel fuel s = (some a, s1) →
      isComplete csp s1 = true ∧ a = assignmentOf csp s1 := by
  intro fuel
  induction fuel with
  | zero => intro s a s1 h; cases h
  | succ fuel ih =>
    intro s a s1 h
    rw [backtrack] at h
    by_cases hcomp : isComplete csp s = true
    · rw [if_pos hcomp] at h
      cases h
      exact ⟨hcomp, rfl⟩
    · rw [if_neg hcomp] at h
      cases hsel : selectUnassignedVariable csp s with
      | none =>
        rw [hsel] at h
        cases h
      | some v =>
        rw [hsel] at h
        have h2 : tryValues (backtrack csp acFuel fuel) csp acFuel v
            (orderDomainValues csp s v) s = (some a, s1) := h
        exact tryValues_some_complete csp acFuel v _ ih _ s a s1 h2

/-- With no variables, `backtrack` never moves the state. -/
theorem backtrack_snd_of_numVars_zero (cs : List Constraint) (acFuel fuel : Nat)
    (s : SearchState) : (backtrack ⟨0, cs⟩ acFuel fuel s).2 = s := by
  match fuel with
  | 0 => rfl
  | fuel + 1 =>
    rw [backtrack]
    rw [if_pos (show isComplete ⟨0, cs⟩ s = true from rfl)]

/-- When the assignment is complete it has one entry per variable. -/
theorem assignmentOf_length_of_complete (csp : CSP) (s : SearchState)
    (h : isComplete csp s = true) :
    (assignmentOf csp s).length = csp.numVars := by
  unfold assignmentOf
  unfold isComplete at h
  rw [List.all_eq_true] at h
  have haux : ∀ l : List Nat, (∀ i ∈ l, ((dom s i).length == 1) = true) →
      (l.filterMap fun i =>
        if (dom s i).length == 1 then some (i, (dom s i).headD 0) else none).length
        = l.length := by
    intro l
    induction l with
    | nil => intro _; rfl
    | cons i rest ihl =>
      intro hl
      rw [List.filterMap_cons]
      rw [if_pos (hl i (List.mem_cons_self _ _))]
      simp only [List.length_cons]
      rw [ihl (fun j hj => hl j (List.mem_cons_of_mem _ hj))]
  rw [haux _ (fun i hi => h i hi), List.length_range]

/-- Each variable assigned in a complete state appears in the extracted
assignment with its single domain value. -/
theorem mem_assignmentOf (csp : CSP) (s : SearchState) (i : Nat)
    (hi : i < csp.numVars) (h1 : (dom s i).length = 1) :
    (i, (dom s i).headD 0) ∈ assignmentOf csp s := by
  unfold assignmentOf
  refine List.mem_filterMap.mpr ⟨i, List.mem_range.mpr hi, ?_⟩
  rw [if_pos (by rw [h1]; rfl)]

/-! ### Claim C6, amended: machinery

The source's conflict count for a candidate `x` equals twice the claim's
count plus the constant `2 * degree` (each neighbor's arc appears in both
orientations and every arc also counts the variable's own domain), so for
a duplicate-free own domain the two stable sorts coincide. -/

theorem mem_sInsert (k : Nat → Nat) (a x : Nat) :
    ∀ acc : List Nat, x ∈ sInsert k a acc ↔ x = a ∨ x ∈ acc := by
  intro acc
  induction acc with
  | nil => simp [sInsert]
  | cons b bs ih =>
    rw [sInsert]
    by_cases hle : k b ≤ k a
    · rw [if_pos hle]
      simp only [List.mem_cons, ih]
      tauto
    · rw [if_neg hle]
      simp only [List.mem_cons]

theorem sInsert_affine (k1 k2 : Nat → Nat) (c2 a : Nat) :
    ∀ acc : List Nat, (∀ x ∈ a :: acc, k2 x = 2 * k1 x + c2) →
      sInsert k2 a acc = sInsert k1 a acc := by
  intro acc
  induction acc with
  | nil => intro _; rfl
  | cons b bs ih =>
    intro h
    have ha := h a (List.mem_cons_self _ _)
    have hb := h b (List.mem_cons_of_mem _ (List.mem_cons_self _ _))
    rw [sInsert, sInsert]
    by_cases hle : k1 b ≤ k1 a
    · rw [if_pos hle, if_pos (by rw [ha, hb]; omega)]
      rw [ih]
      intro x hx
      rcases List.mem_cons.mp hx with hx | hx
      · rw [hx]; exact ha
      · exact h x (List.mem_cons_of_mem _ (List.mem_cons_of_mem _ hx))
    · rw [if_neg hle, if_neg (by rw [ha, hb]; omega)]

theorem foldl_sInsert_affine (k1 k2 : Nat → Nat) (c2 : Nat) :
    ∀ (l acc : List Nat), (∀ x, x ∈ acc ∨ x ∈ l → k2 x = 2 * k1 x + c2) →
      l.foldl (fun acc a => sInsert k2 a acc) acc
        = l.foldl (fun acc a => sInsert k1 a acc) acc := by
  intro l
  induction l with
  | nil => intro acc _; rfl
  | cons a rest ih =>
    intro acc h
    simp only [List.foldl_cons]
    rw [sInsert_affine k1 k2 c2 a acc (by
      intro x hx
      rcases List.mem_cons.mp hx with hx | hx
      · exact h x (Or.inr (by rw [hx]; exact List.mem_cons_self _ _))
      · exact h x (Or.inl hx))]
    apply ih
    intro x hx
    rcases hx with hx | hx
    · rcases (mem_sInsert k1 a x acc).mp hx with hx | hx
      · exact h x (Or.inr (by rw [hx]; exact List.mem_cons_self _ _))
      · exact h x (Or.inl hx)
    · exact h x (Or.inr (List.mem_cons_of_mem _ hx))

/-- Two keys that differ by the affine map `x ↦ 2x + c` on all sorted
elements produce the same stable sort. -/
theorem stableSortByKey_affine (k1 k2 : Nat → Nat) (c2 : Nat) (l : List Nat)
    (h : ∀ x ∈ l, k2 x = 2 * k1 x + c2) :
    stableSortByKey k2 l = stableSortByKey k1 l := by
  unfold stableSortByKey
  apply foldl_sInsert_affine k1 k2 c2 l []
  intro x hx
  rcases hx with hx | hx
  · cases hx
  · exact h x hx

theorem foldl_occStep_nodup :
    ∀ (l acc : List Nat), acc.Nodup →
      (l.foldl (fun acc w => if w ∈ acc then acc else acc ++ [w]) acc).Nodup := by
  intro l
  induction l with
  | nil => intro acc h; exact h
  | cons w rest ih =>
    intro acc h
    simp only [List.foldl_cons]
    by_cases hw : w ∈ acc
    · rw [if_pos hw]
      exact ih acc h
    · rw [if_neg hw]
      refine ih _ ?_
      simp [List.nodup_append, h, hw]

theorem foldl_occStep_of_nodup_disjoint :
    ∀ (l acc : List Nat), l.Nodup → (∀ x ∈ l, ¬x ∈ acc) →
      l.foldl (fun acc w => if w ∈ acc then acc else acc ++ [w]) acc = acc ++ l := by
  intro l
  induction l with
  | nil => intro acc _ _; simp
  | cons w rest ih =>
    intro acc hnd hdisj
    simp only [List.foldl_cons]
    rw [if_neg (hdisj w (List.mem_cons_self _ _))]
    have hdisj2 : ∀ x ∈ rest, ¬x ∈ acc ++ [w] := by
      intro x hx hmem
      rcases List.mem_append.mp hmem with h1 | h1
      · exact hdisj x (List.mem_cons_of_mem _ hx) h1
      · rw [List.mem_singleton.mp h1] at hx
        exact (List.nodup_cons.mp hnd).1 hx
    rw [ih (acc ++ [w]) (List.Nodup.of_cons hnd) hdisj2]
    simp

theorem firstOccs_nodup (l : List Nat) : (firstOccs l).Nodup :=
  foldl_occStep_nodup l [] List.nodup_nil

theorem firstOccs_of_nodup (l : List Nat) (h : l.Nodup) : firstOccs l = l := by
  unfold firstOccs
  rw [foldl_occStep_of_nodup_disjoint l [] h (by intro x _ hx; cases hx)]
  rfl

theorem mem_foldl_occStep :
    ∀ (l acc : List Nat) (x : Nat),
      x ∈ l.foldl (fun acc w => if w ∈ acc then acc else acc ++ [w]) acc →
      x ∈ acc ∨ x ∈ l := by
  intro l
  induction l with
  | nil => intro acc x h; exact Or.inl h
  | cons w rest ih =>
    intro acc x h
    simp only [List.foldl_cons] at h
    by_cases hw : w ∈ acc
    · rw [if_pos hw] at h
      rcases ih acc x h with h1 | h1
      · exact Or.inl h1
      · exact Or.inr (List.mem_cons_of_mem _ h1)
    · rw [if_neg hw] at h
      rcases ih _ x h with h1 | h1
      · rcases List.mem_append.mp h1 with h2 | h2
        · exact Or.inl h2
        · exact Or.inr (by rw [List.mem_singleton.mp h2]; exact List.mem_cons_self _ _)
      · exact Or.inr (List.mem_cons_of_mem _ h1)

theorem mem_firstOccs (l : List Nat) (x : Nat) (h : x ∈ firstOccs l) : x ∈ l := by
  rcases mem_foldl_occStep l [] x h with h1 | h1
  · cases h1
  · exact h1

theorem foldl_occStep_bind_dup :
    ∀ (l acc : List Nat),
      (l.bind fun w => [w, w]).foldl (fun acc w => if w ∈ acc then acc else acc ++ [w]) acc
        = l.foldl (fun acc w => if w ∈ acc then acc else acc ++ [w]) acc := by
  intro l
  induction l with
  | nil => intro acc; rfl
  | cons w rest ih =>
    intro acc
    show ((([w, w] ++ rest.bind fun w => [w, w])).foldl
        (fun acc w => if w ∈ acc then acc else acc ++ [w]) acc) = _
    rw [List.foldl_append]
    simp only [List.foldl_cons, List.foldl_nil]
    have hstep : ∀ b : List Nat,
        (if w ∈ (if w ∈ b then b else b ++ [w]) then (if w ∈ b then b else b ++ [w])
          else (if w ∈ b then b else b ++ [w]) ++ [w]) = if w ∈ b then b else b ++ [w] := by
      intro b
      by_cases hw : w ∈ b
      · simp [hw]
      · rw [if_neg hw, if_pos (by simp)]
    rw [hstep acc]
    rw [ih]

theorem firstOccs_bind_dup (l : List Nat) :
    firstOccs (l.bind fun w => [w, w]) = firstOccs l :=
  foldl_occStep_bind_dup l []

theorem dictKeys_lutAdd_eq {κ : Type} [DecidableEq κ]
    (lut : List (κ × List Constraint)) (k : κ) (c : Constraint) :
    dictKeys (lutAdd lut k c)
      = if k ∈ dictKeys lut then dictKeys lut else dictKeys lut ++ [k] := by
  rcases lutAdd_eq lut k c with ⟨l0, _, _, heq⟩ | heq
  · rw [heq]
    by_cases hk : k ∈ dictKeys lut
    · rw [if_pos hk, dictKeys_dictSet_mem _ _ _ hk]
    · rw [if_neg hk, dictKeys_dictSet_not_mem _ _ _ hk]
  · rw [heq]
    by_cases hk : k ∈ dictKeys lut
    · rw [if_pos hk, dictKeys_dictSet_mem _ _ _ hk]
    · rw [if_neg hk, dictKeys_dictSet_not_mem _ _ _ hk]

/-- Membership in an interleaved pair list `[(v,w1),(w1,v),(v,w2),...]`. -/
theorem pair_bind_mem (v w : Nat) (hwv : w ≠ v) :
    ∀ ws : List Nat, (∀ x ∈ ws, x ≠ v) →
      (((v, w) ∈ ws.bind fun x => [(v, x), (x, v)]) ↔ w ∈ ws) ∧
      (((w, v) ∈ ws.bind fun x => [(v, x), (x, v)]) ↔ w ∈ ws) := by
  intro ws hws
  constructor
  · constructor
    · intro h
      rcases List.mem_bind.mp h with ⟨x, hx, hmem⟩
      rcases List.mem_cons.mp hmem with h1 | h1
      · cases h1
        exact hx
      · rw [List.mem_singleton] at h1
        exact absurd (congrArg Prod.fst h1).symm (hws x hx)
    · intro h
      exact List.mem_bind.mpr ⟨w, h, List.mem_cons_self _ _⟩
  · constructor
    · intro h
      rcases List.mem_bind.mp h with ⟨x, hx, hmem⟩
      rcases List.mem_cons.mp hmem with h1 | h1
      · exact absurd (congrArg Prod.fst h1) hwv
      · rw [List.mem_singleton] at h1
        injection h1 with h1a h1b
        rw [h1a]
        exact hx
    · intro h
      exact List.mem_bind.mpr
        ⟨w, h, List.mem_cons_of_mem _ (List.mem_cons_self _ _)⟩

/-- The binary lookup-table keys of a constraint list whose members all
have first variable `v` and second variable different from `v` are the
interleaved pairs `[(v,w),(w,v)]` over the first occurrences of the second
variables. -/
theorem buildBinary_keys_pairs (v : Nat) :
    ∀ lst : List Constraint, (∀ c ∈ lst, c.var1 = v ∧ c.var2 ≠ v) →
    ∀ (lut : List ((Nat × Nat) × List Constraint)) (ws : List Nat),
      (∀ x ∈ ws, x ≠ v) →
      dictKeys lut = ws.bind (fun x => [(v, x), (x, v)]) →
      dictKeys (lst.foldl
          (fun lut c => lutAdd (lutAdd lut (c.var1, c.var2) c) (c.var2, c.var1) c.flip) lut)
        = ((lst.map Constraint.var2).foldl
            (fun acc w => if w ∈ acc then acc else acc ++ [w]) ws).bind
            fun x => [(v, x), (x, v)] := by
  intro lst
  induction lst with
  | nil =>
    intro _ lut ws _ hkeys
    exact hkeys
  | cons c rest ih =>
    intro hl lut ws hws hkeys
    obtain ⟨hv1, hv2⟩ := hl c (List.mem_cons_self _ _)
    simp only [List.foldl_cons, List.map_cons]
    rw [hv1]
    have hpm := pair_bind_mem v c.var2 hv2 ws hws
    by_cases hmemw : c.var2 ∈ ws
    · have hk1 : (v, c.var2) ∈ dictKeys lut := by
        rw [hkeys]
        exact hpm.1.mpr hmemw
      have hkeys1 : dictKeys (lutAdd lut (v, c.var2) c) = dictKeys lut := by
        rw [dictKeys_lutAdd_eq, if_pos hk1]
      have hk2 : (c.var2, v) ∈ dictKeys (lutAdd lut (v, c.var2) c) := by
        rw [hkeys1, hkeys]
        exact hpm.2.mpr hmemw
      have hkeys2 : dictKeys (lutAdd (lutAdd lut (v, c.var2) c) (c.var2, v) c.flip)
          = dictKeys lut := by
        rw [dictKeys_lutAdd_eq, if_pos hk2, hkeys1]
      rw [if_pos hmemw]
      refine ih (fun c1 hc1 => hl c1 (List.mem_cons_of_mem _ hc1)) _ ws hws ?_
      rw [hkeys2, hkeys]
    · have hk1 : ¬(v, c.var2) ∈ dictKeys lut := by
        rw [hkeys]
        intro hmem
        exact hmemw (hpm.1.mp hmem)
      have hkeys1 : dictKeys (lutAdd lut (v, c.var2) c)
          = dictKeys lut ++ [(v, c.var2)] := by
        rw [dictKeys_lutAdd_eq, if_neg hk1]
      have hk2 : ¬(c.var2, v) ∈ dictKeys (lutAdd lut (v, c.var2) c) := by
        rw [hkeys1]
        intro hmem
        rcases List.mem_append.mp hmem with h1 | h1
        · rw [hkeys] at h1
          exact hmemw (hpm.2.mp h1)
        · rw [List.mem_singleton] at h1
          exact hv2 (congrArg Prod.fst h1)
      have hkeys2 : dictKeys (lutAdd (lutAdd lut (v, c.var2) c) (c.var2, v) c.flip)
          = dictKeys lut ++ [(v, c.var2), (c.var2, v)] := by
        rw [dictKeys_lutAdd_eq, if_neg hk2, hkeys1]
        simp
      rw [if_neg hmemw]
      refine ih (fun c1 hc1 => hl c1 (List.mem_cons_of_mem _ hc1)) _ (ws ++ [c.var2]) ?_ ?_
      · intro x hx
        rcases List.mem_append.mp hx with h1 | h1
        · exact hws x h1
        · rw [List.mem_singleton.mp h1]
          exact hv2
      · rw [hkeys2, hkeys]
        simp

/-- `constraints[v].arcs()` is the interleaved pair list over the first
occurrences of `v`'s neighbors. -/
theorem arcsOfList_pairs (v : Nat) (lst : List Constraint)
    (h : ∀ c ∈ lst, c.var1 = v ∧ c.var2 ≠ v) :
    arcsOfList lst
      = (firstOccs (lst.map Constraint.var2)).bind fun w => [(v, w), (w, v)] := by
  unfold arcsOfList buildBinary firstOccs
  exact buildBinary_keys_pairs v lst h [] [] (by intro x hx; cases hx) rfl

theorem conflicts_foldl (s : SearchState) (x : Nat) :
    ∀ (l : List (Nat × Nat)) (n : Nat),
      l.foldl (fun acc nb => acc + (dom s nb.1).count x + (dom s nb.2).count x) n
        = n + (l.map fun nb => (dom s nb.1).count x + (dom s nb.2).count x).sum := by
  intro l
  induction l with
  | nil => intro n; simp
  | cons nb rest ih =>
    intro n
    simp only [List.foldl_cons, List.map_cons, List.sum_cons]
    rw [ih]
    omega

/-- Summing the source's per-arc conflict contribution over the
interleaved pair list: each neighbor's count appears twice and the
variable's own count appears twice per neighbor. -/
theorem sum_counts_pairs (s : SearchState) (x v : Nat) :
    ∀ ws : List Nat,
      ((ws.bind fun w => [(v, w), (w, v)]).map
          fun nb => (dom s nb.1).count x + (dom s nb.2).count x).sum
        = 2 * (ws.map fun w => (dom s w).count x).sum
            + 2 * ws.length * ((dom s v).count x) := by
  intro ws
  induction ws with
  | nil => simp
  | cons w rest ih =>
    show (((([(v, w), (w, v)] ++ rest.bind fun w => [(v, w), (w, v)])).map
        fun nb => (dom s nb.1).count x + (dom s nb.2).count x)).sum = _
    rw [List.map_append, List.sum_append, ih]
    simp only [List.map_cons, List.map_nil, List.sum_cons, List.sum_nil, List.length_cons]
    ring

/-- Mapping each arc of the interleaved pair list to its endpoint other
than `v` yields each neighbor twice. -/
theorem map_other_pairs (v : Nat) :
    ∀ W : List Nat, (∀ w ∈ W, w ≠ v) →
      ((W.bind fun w => [(v, w), (w, v)]).map fun nb => if nb.1 == v then nb.2 else nb.1)
        = W.bind fun w => [w, w] := by
  intro W
  induction W with
  | nil => intro _; rfl
  | cons w rest ih =>
    intro h
    have hw := h w (List.mem_cons_self _ _)
    show ((([(v, w), (w, v)] ++ rest.bind fun w => [(v, w), (w, v)])).map
        fun nb => if nb.1 == v then nb.2 else nb.1) = [w, w] ++ rest.bind fun w => [w, w]
    rw [List.map_append, ih (fun x hx => h x (List.mem_cons_of_mem _ hx))]
    congr 1
    show [if (v == v) = true then w else v, if (w == v) = true then v else w] = [w, w]
    rw [if_pos (by simp), if_neg (by simp [hw])]

/-- C6, amended.  For every CSP without self-constraints and every variable
whose current domain has no duplicate values, `order_domain_values`
returns exactly the claim's ordering: a stable ascending sort of the
domain by the number of values across all neighboring variables' domains
equal to the candidate.  (The source's count is `2 × claim + 2 × degree`,
an order- and tie-preserving transformation; with duplicates in the
variable's own domain the two orderings can differ, see the
counterexample.) -/
theorem lcv_matches_claim_nodup_c6 (csp : CSP) (s : SearchState) (v : Nat)
    (hself : ∀ c ∈ csp.constraints, c.var1 ≠ c.var2)
    (hnodup : (dom s v).Nodup) :
    orderDomainValues csp s v = claimOrder csp s v := by
  have hmem : ∀ c ∈ unaryFor csp.constraints v, c.var1 = v ∧ c.var2 ≠ v := by
    intro c hc
    have h1 := unaryFor_var1 csp.constraints v c hc
    refine ⟨h1, ?_⟩
    rcases unaryFor_origin csp.constraints v c hc with ⟨c0, hc0, h | h⟩
    · subst h
      intro h2
      exact hself c hc0 (h1.trans h2.symm)
    · subst h
      intro h2
      exact hself c0 hc0 (h2.trans ((unaryFor_var1 csp.constraints v _ hc).symm : _))
  have harcs := arcsOfList_pairs v (unaryFor csp.constraints v) hmem
  have hWne : ∀ w ∈ firstOccs ((unaryFor csp.constraints v).map Constraint.var2), w ≠ v := by
    intro w hw
    have hw2 := mem_firstOccs _ w hw
    rcases List.mem_map.mp hw2 with ⟨c, hc, hcv⟩
    rw [← hcv]
    exact (hmem c hc).2
  have hnbW : neighborsOf csp.constraints v
      = firstOccs ((unaryFor csp.constraints v).map Constraint.var2) := by
    unfold neighborsOf
    rw [harcs]
    rw [map_other_pairs v _ hWne, firstOccs_bind_dup]
    exact firstOccs_of_nodup _ (firstOccs_nodup _)
  have hkey : ∀ x ∈ dom s v, conflictsOf csp.constraints s v x
      = 2 * claimConflicts csp.constraints s v x
        + 2 * (firstOccs ((unaryFor csp.constraints v).map Constraint.var2)).length := by
    intro x hx
    have hcount : (dom s v).count x = 1 := List.count_eq_one_of_mem hnodup hx
    unfold conflictsOf claimConflicts
    rw [harcs, conflicts_foldl, sum_counts_pairs, hcount, hnbW]
    omega
  unfold orderDomainValues claimOrder
  exact stableSortByKey_affine (claimConflicts csp.constraints s v)
    (conflictsOf csp.constraints s v)
    (2 * (firstOccs ((unaryFor csp.constraints v).map Constraint.var2)).length)
    (dom s v) hkey

/-- Witness for the amended C6: with the duplicate-free domain `[1, 2]`
under one `ne` constraint the code's ordering equals the claim's. -/
theorem lcv_matches_claim_nodup_c6_witness :
    orderDomainValues cspC6 ⟨[[1, 2], [1]], []⟩ 0
      = claimOrder cspC6 ⟨[[1, 2], [1]], []⟩ 0 :=
  lcv_matches_claim_nodup_c6 cspC6 ⟨[[1, 2], [1]], []⟩ 0 (by decide) (by decide)

/-! ### Claim C4 -/

/-- C4 counterexample.  `backtracking_search` returns a complete assignment
that violates a constraint, on two instances: (a) both variables
pre-assigned to `1` under `ne` — `is_complete` holds at entry and the
assignment is returned with no constraint ever checked; (b) no variable
pre-assigned — the solver assigns `5` to variable `2`, the inference step's
buggy `revise` prunes variables `0` and `1` to the unsupported singletons
`8` and `7`, and the completed state is accepted although the constraint
`var0 < var1` fails on `8 < 7`. -/
theorem search_invalid_assignment_c4 :
    (backtrackingSearch cspC4 20 20 sC4).1 = some [(0, 1), (1, 1)] ∧
    assignmentValid cspC4 [(0, 1), (1, 1)] = false ∧
    (backtrackingSearch cspC4b 30 10 sC4b).1 = some [(0, 8), (1, 7), (2, 5)] ∧
    assignmentValid cspC4b [(0, 8), (1, 7), (2, 5)] = false := by
  refine ⟨rfl, rfl, rfl, rfl⟩

/-- C4, amended.  `backtracking_search` returns either a mapping in which
every variable of the CSP is mapped to exactly one value (its final
singleton domain, with the search state complete on return) or the
explicit no-solution signal `None`, and when it returns `None` every
variable's domain equals its state at entry.  The claim's further
requirement that every constraint's predicate holds on the mapped values
fails on the code (see the counterexample): constraints between two
variables that the search never explicitly assigns are never checked. -/
theorem search_complete_or_restored_c4 (csp : CSP) (acFuel fuel : Nat) (s : SearchState) :
    (∀ m s1, backtrackingSearch csp acFuel fuel s = (some m, s1) →
      isComplete csp s1 = true ∧ m = assignmentOf csp s1 ∧
      ∀ i, i < csp.numVars → ∃ value, dom s1 i = [value] ∧ (i, value) ∈ m) ∧
    ((backtrackingSearch csp acFuel fuel s).1 = none →
      (backtrackingSearch csp acFuel fuel s).2.doms = s.doms) := by
  rcases hbt : backtrack csp acFuel fuel s with ⟨r, s0⟩
  cases r with
  | none =>
    have hsearch : backtrackingSearch csp acFuel fuel s = (none, s0) := by
      unfold backtrackingSearch
      rw [hbt]
    rw [hsearch]
    constructor
    · intro m s1 h
      cases h
    · intro _
      have h1 := backtrack_none_restore csp acFuel fuel s
      rw [hbt] at h1
      have h2 : s0 = s := h1 rfl
      rw [h2]
  | some a =>
    have hcomp := backtrack_some_complete csp acFuel fuel s a s0 hbt
    by_cases hemp : a.isEmpty = true
    · have hsearch : backtrackingSearch csp acFuel fuel s = (none, s0) := by
        unfold backtrackingSearch
        rw [hbt]
        show (if a.isEmpty = true then ((none : Option (List (Nat × Nat))), s0)
            else (some (assignmentOf csp s0), s0)) = (none, s0)
        rw [if_pos hemp]
      rw [hsearch]
      constructor
      · intro m s1 h
        cases h
      · intro _
        show s0.doms = s.doms
        have hnil : a = [] := by
          cases a with
          | nil => rfl
          | cons x xs => simp at hemp
        have hlen := assignmentOf_length_of_complete csp s0 hcomp.1
        rw [← hcomp.2, hnil] at hlen
        obtain ⟨n, cs⟩ := csp
        have hn : n = 0 := by simpa using hlen.symm
        subst hn
        have h3 := backtrack_snd_of_numVars_zero cs acFuel fuel s
        rw [hbt] at h3
        have h4 : s0 = s := h3
        rw [h4]
    · have hsearch : backtrackingSearch csp acFuel fuel s
          = (some (assignmentOf csp s0), s0) := by
        unfold backtrackingSearch
        rw [hbt]
        show (if a.isEmpty = true then ((none : Option (List (Nat × Nat))), s0)
            else (some (assignmentOf csp s0), s0)) = (some (assignmentOf csp s0), s0)
        rw [if_neg hemp]
      rw [hsearch]
      constructor
      · intro m s1 h
        cases h
        refine ⟨hcomp.1, rfl, ?_⟩
        intro i hi
        have hone : ((dom s0 i).length == 1) = true := by
          have h5 := hcomp.1
          unfold isComplete at h5
          rw [List.all_eq_true] at h5
          exact h5 i (List.mem_range.mpr hi)
        have hlen1 : (dom s0 i).length = 1 := by simpa using hone
        rcases List.length_eq_one.mp hlen1 with ⟨value, hv⟩
        refine ⟨value, hv, ?_⟩
        have hmem := mem_assignmentOf csp s0 i hi hlen1
        rw [hv] at hmem
        exact hmem
      · intro hfalse
        exact Option.noConfusion hfalse

/-- Witness for the amended C4 on a concrete solvable instance: two
variables with domains `[1, 2]` under `var0 < var1` are solved, the final
state is complete and each variable ends with the singleton domain
recorded in the returned mapping. -/
theorem search_complete_or_restored_c4_witness :
    isComplete ⟨2, [⟨0, 1, .lt⟩]⟩ (⟨[[1], [2]], [[[1, 2], [1, 2]]]⟩ : SearchState) = true ∧
    [(0, 1), (1, 2)]
      = assignmentOf ⟨2, [⟨0, 1, .lt⟩]⟩ (⟨[[1], [2]], [[[1, 2], [1, 2]]]⟩ : SearchState) ∧
    ∀ i, i < (⟨2, [⟨0, 1, .lt⟩]⟩ : CSP).numVars →
      ∃ value, dom (⟨[[1], [2]], [[[1, 2], [1, 2]]]⟩ : SearchState) i = [value] ∧
        (i, value) ∈ [(0, 1), (1, 2)] :=
  (search_complete_or_restored_c4 ⟨2, [⟨0, 1, .lt⟩]⟩ 30 10 ⟨[[1, 2], [1, 2]], []⟩).1
    [(0, 1), (1, 2)] ⟨[[1], [2]], [[[1, 2], [1, 2]]]⟩ rfl

/-! ### Claim C9: ignoring the inference result is harmless -/

/-- Arcs taken from the unary table of a constraint list have endpoints
among the constraint endpoints. -/
theorem arcs_unaryFor_below (cs : List Constraint) (n v : Nat)
    (hcs : ∀ c ∈ cs, c.var1 < n ∧ c.var2 < n) :
    ∀ arc ∈ arcsOfList (unaryFor cs v), arc.1 < n ∧ arc.2 < n := by
  intro arc harc
  rcases arcsOfList_origin _ arc harc with ⟨c, hc, hor⟩
  rcases unaryFor_origin cs v c hc with ⟨c0, hc0, hco⟩
  have hb := hcs c0 hc0
  have hcb : c.var1 < n ∧ c.var2 < n := by
    rcases hco with h | h
    · rw [h]
      exact hb
    · rw [h]
      exact ⟨hb.2, hb.1⟩
  rcases hor with h | h
  · rw [h]
    exact hcb
  · rw [h]
    exact ⟨hcb.2, hcb.1⟩

/-- When p6's `ac3` loop reports failure, some real variable's domain is
empty in the returned state: the only `False` exit is the emptiness test
right after a revision. -/
theorem ac3LoopP6_false_empty (cs : List Constraint) (n : Nat)
    (hcs : ∀ c ∈ cs, c.var1 < n ∧ c.var2 < n) :
    ∀ (fuel : Nat) (q : List (Nat × Nat)) (s : SearchState),
      (∀ arc ∈ q, arc.1 < n ∧ arc.2 < n) →
      (ac3LoopP6 cs fuel q s).1 = false →
      ∃ i, i < n ∧ dom (ac3LoopP6 cs fuel q s).2 i = [] := by
  intro fuel
  induction fuel with
  | zero =>
    intro q s hq hf
    simp [ac3LoopP6] at hf
  | succ fuel ih =>
    intro q s hq hf
    match q with
    | [] => simp [ac3LoopP6] at hf
    | arc :: rest =>
      rw [ac3LoopP6] at hf ⊢
      by_cases hrev : (revise cs arc.1 arc.2 s).1 = true
      · rw [if_pos hrev] at hf ⊢
        by_cases hempty : ((dom (revise cs arc.1 arc.2 s).2 arc.1).length == 0
            || (dom (revise cs arc.1 arc.2 s).2 arc.2).length == 0) = true
        · rw [if_pos hempty] at hf ⊢
          rcases Bool.or_eq_true _ _ |>.mp hempty with h | h
          · refine ⟨arc.1, (hq arc (List.mem_cons_self _ _)).1, ?_⟩
            exact List.length_eq_zero.mp (by simpa using h)
          · refine ⟨arc.2, (hq arc (List.mem_cons_self _ _)).2, ?_⟩
            exact List.length_eq_zero.mp (by simpa using h)
        · rw [if_neg hempty] at hf ⊢
          refine ih _ _ ?_ hf
          intro a ha
          rcases List.mem_append.mp ha with h | h
          · exact hq a (List.mem_cons_of_mem _ h)
          · exact arcs_unaryFor_below cs n arc.1 hcs a (List.mem_filter.mp h).1
      · rw [if_neg hrev] at hf ⊢
        refine ih _ _ ?_ hf
        intro a ha
        exact hq a (List.mem_cons_of_mem _ ha)

/-- The MRV scan: if some listed variable has an empty domain (or the
smallest size seen is already `0`), the scan ends with smallest size `0`
and a non-empty tie list consisting only of empty-domain variables. -/
theorem mrvLoop_zero (s : SearchState) :
    ∀ (l : List Nat) (small : Option Nat) (tie : List Nat),
      (small = some 0 → tie ≠ [] ∧ ∀ j ∈ tie, dom s j = []) →
      ((∃ i ∈ l, dom s i = []) ∨ small = some 0) →
      (mrvLoop s l small tie).1 = some 0 ∧
      (mrvLoop s l small tie).2 ≠ [] ∧
      ∀ j ∈ (mrvLoop s l small tie).2, dom s j = [] := by
  intro l
  induction l with
  | nil =>
    intro small tie hinv hex
    have h0 : small = some 0 := by
      rcases hex with ⟨i, hi, _⟩ | h0
      · cases hi
      · exact h0
    exact ⟨h0, (hinv h0).1, (hinv h0).2⟩
  | cons i rest ih =>
    intro small tie hinv hex
    rw [mrvLoop]
    by_cases hc1 : (ltSmall (dom s i).length small && (dom s i).length != 1) = true
    · rw [if_pos hc1]
      by_cases hz : (dom s i).length = 0
      · refine ih (some (dom s i).length) [i] ?_ (Or.inr (by rw [hz]))
        intro _
        refine ⟨by simp, ?_⟩
        intro j hj
        rw [List.mem_singleton.mp hj]
        exact List.length_eq_zero.mp hz
      · refine ih (some (dom s i).length) [i] ?_ ?_
        · intro hc
          exact absurd (by simpa using hc) hz
        · refine Or.inl ?_
          rcases hex with ⟨i1, hi1, hd1⟩ | h0
          · rcases List.mem_cons.mp hi1 with h | h
            · exact absurd (by rw [← h]; exact congrArg List.length hd1) hz
            · exact ⟨i1, h, hd1⟩
          · exfalso
            rw [h0] at hc1
            have := (Bool.and_eq_true _ _ |>.mp hc1).1
            simp [ltSmall] at this
    · rw [if_neg hc1]
      by_cases hc2 : (small == some (dom s i).length) = true
      · rw [if_pos hc2]
        have hsm : small = some (dom s i).length := eq_of_beq hc2
        refine ih small (tie ++ [i]) ?_ ?_
        · intro h0
          have hz : (dom s i).length = 0 := by
            rw [h0] at hsm
            exact (Option.some.inj hsm).symm
          refine ⟨by simp, ?_⟩
          intro j hj
          rcases List.mem_append.mp hj with h | h
          · exact (hinv h0).2 j h
          · rw [List.mem_singleton.mp h]
            exact List.length_eq_zero.mp hz
        · rcases hex with ⟨i1, hi1, hd1⟩ | h0
          · rcases List.mem_cons.mp hi1 with h | h
            · refine Or.inr ?_
              rw [hsm, ← h, hd1]
              rfl
            · exact Or.inl ⟨i1, h, hd1⟩
          · exact Or.inr h0
      · rw [if_neg hc2]
        refine ih small tie hinv ?_
        rcases hex with ⟨i1, hi1, hd1⟩ | h0
        · rcases List.mem_cons.mp hi1 with h | h
          · exfalso
            have hz : (dom s i).length = 0 := by
              rw [← h]
              exact congrArg List.length hd1
            cases hsm : small with
            | none =>
              apply hc1
              rw [hz, hsm]
              rfl
            | some m =>
              by_cases hm : m = 0
              · apply hc2
                rw [hsm, hm, hz]
                rfl
              · apply hc1
                rw [hz, hsm]
                simp [ltSmall, Nat.pos_of_ne_zero hm]
          · exact Or.inl ⟨i1, h, hd1⟩
        · exact Or.inr h0

/-- The tie-break loop with the never-updated `largestConstraints` returns
the last candidate. -/
theorem tieBreakLoop_last (cs : List Constraint) :
    ∀ (l : List Nat) (nxt : Option Nat),
      tieBreakLoop cs l none nxt
        = match l with
          | [] => nxt
          | v :: rest => some (List.getLastD rest v) := by
  intro l
  induction l with
  | nil => intro nxt; rfl
  | cons v rest ih =>
    intro nxt
    rw [tieBreakLoop]
    rw [if_pos (by rfl)]
    rw [ih (some v)]
    cases rest with
    | nil => rfl
    | cons w rs =>
      show some (List.getLastD rs w) = some (List.getLastD (w :: rs) v)
      rw [List.getLastD_cons]

theorem getLastD_mem_cons (rest : List Nat) (v : Nat) :
    List.getLastD rest v ∈ v :: rest := by
  induction rest generalizing v with
  | nil => exact List.mem_singleton.mpr rfl
  | cons w rs ih =>
    have := ih w
    rw [List.getLastD_cons]
    rcases List.mem_cons.mp this with h | h
    · rw [h]
      exact List.mem_cons_of_mem _ (List.mem_cons_self _ _)
    · exact List.mem_cons_of_mem _ (List.mem_cons_of_mem _ h)

/-- If some variable's domain is empty, `select_unassigned_variable`
returns an empty-domain variable (MRV ≡ 0). -/
theorem select_empty (csp : CSP) (s : SearchState)
    (h : ∃ i, i < csp.numVars ∧ dom s i = []) :
    ∃ v, selectUnassignedVariable csp s = some v ∧ dom s v = [] := by
  obtain ⟨i, hi, hdom⟩ := h
  have hmrv := mrvLoop_zero s (List.range csp.numVars) none []
    (fun h0 => by cases h0)
    (Or.inl ⟨i, List.mem_range.mpr hi, hdom⟩)
  rcases hmrv with ⟨h1, h2, h3⟩
  unfold selectUnassignedVariable
  rcases hne : (mrvLoop s (List.range csp.numVars) none []).2 with _ | ⟨v, rest⟩
  · exact absurd hne h2
  · rw [tieBreakLoop_last]
    refine ⟨List.getLastD rest v, rfl, ?_⟩
    apply h3
    rw [hne]
    exact getLastD_mem_cons rest v

/-- With an empty domain present, `backtrack` fails immediately without
touching the state: the assignment is incomplete, MRV selects an
empty-domain variable, and the value loop has nothing to try. -/
theorem backtrack_fails_on_empty (csp : CSP) (acFuel fuel : Nat) (s : SearchState)
    (hex : ∃ i, i < csp.numVars ∧ dom s i = []) :
    backtrack csp acFuel fuel s = (none, s) := by
  match fuel with
  | 0 => rfl
  | fuel + 1 =>
    rw [backtrack]
    have hncomp : ¬isComplete csp s = true := by
      obtain ⟨i, hi, hdom⟩ := hex
      intro hall
      unfold isComplete at hall
      rw [List.all_eq_true] at hall
      have := hall i (List.mem_range.mpr hi)
      rw [hdom] at this
      simp at this
    rw [if_neg hncomp]
    obtain ⟨v, hsel, hdomv⟩ := select_empty csp s hex
    rw [hsel]
    show tryValues (backtrack csp acFuel fuel) csp acFuel v (orderDomainValues csp s v) s
        = (none, s)
    have hord : orderDomainValues csp s v = [] := by
      unfold orderDomainValues stableSortByKey
      rw [hdomv]
      rfl
    rw [hord]
    rfl

/-- `tryValuesChecked` only depends on the recursion argument pointwise. -/
theorem tryValuesChecked_congr (csp : CSP) (acFuel v : Nat)
    (bt1 bt2 : SearchState → Option (List (Nat × Nat)) × SearchState)
    (hbt : ∀ s, bt1 s = bt2 s) :
    ∀ (values : List Nat) (s : SearchState),
      tryValuesChecked bt1 csp acFuel v values s
        = tryValuesChecked bt2 csp acFuel v values s := by
  intro values
  induction values with
  | nil => intro s; rfl
  | cons value rest ih =>
    intro s
    rw [tryValuesChecked, tryValuesChecked]
    by_cases hcons : isConsistent csp s v value = true
    · rw [if_pos hcons, if_pos hcons]
      by_cases hinf : (inference csp acFuel v (assignVar (beginTransaction s) v value)).1 = true
      · rw [if_pos hinf, if_pos hinf]
        rw [hbt]
        rcases hb2 : bt2 (inference csp acFuel v (assignVar (beginTransaction s) v value)).2
          with ⟨r, s4⟩
        cases r with
        | some a0 => rfl
        | none => exact ih (rollback s4)
      · rw [if_neg hinf, if_neg hinf]
        exact ih _
    · rw [if_neg hcons, if_neg hcons]
      exact ih s

/-- The value loop with inference-result discarded equals the checked value
loop, as long as the recursion argument is `backtrack` at some fuel: when
inference fails a domain is empty, so the unconditional recursive call
returns failure on the unchanged state and rolls back exactly as the
checked variant does. -/
theorem tryValues_eq_checked (csp : CSP) (acFuel : Nat)
    (hcs : ∀ c ∈ csp.constraints, c.var1 < csp.numVars ∧ c.var2 < csp.numVars)
    (fuel v : Nat) :
    ∀ (values : List Nat) (s : SearchState),
      tryValues (backtrack csp acFuel fuel) csp acFuel v values s
        = tryValuesChecked (backtrack csp acFuel fuel) csp acFuel v values s := by
  intro values
  induction values with
  | nil => intro s; rfl
  | cons value rest ih =>
    intro s
    rw [tryValues, tryValuesChecked]
    by_cases hcons : isConsistent csp s v value = true
    · rw [if_pos hcons, if_pos hcons]
      by_cases hinf : (inference csp acFuel v (assignVar (beginTransaction s) v value)).1 = true
      · rw [if_pos hinf]
        rcases hbt : backtrack csp acFuel fuel
            (inference csp acFuel v (assignVar (beginTransaction s) v value)).2 with ⟨r, s4⟩
        cases r with
        | some a0 => rfl
        | none => exact ih (rollback s4)
      · rw [if_neg hinf]
        have hfalse : (inference csp acFuel v (assignVar (beginTransaction s) v value)).1
            = false := by
          cases h0 : (inference csp acFuel v (assignVar (beginTransaction s) v value)).1
          · rfl
          · exact absurd h0 hinf
        have hempty : ∃ i, i < csp.numVars ∧
            dom (inference csp acFuel v (assignVar (beginTransaction s) v value)).2 i = [] := by
          refine ac3LoopP6_false_empty csp.constraints csp.numVars hcs acFuel _ _ ?_ hfalse
          exact arcs_unaryFor_below csp.constraints csp.numVars v hcs
        have hbt := backtrack_fails_on_empty csp acFuel fuel _ hempty
        rw [hbt]
        exact ih _
    · rw [if_neg hcons, if_neg hcons]
      exact ih s

/-- C9.  p6's `backtrack` discards the boolean returned by the inference
step and recurses unconditionally; for every CSP whose constraints only
mention real variables it nevertheless computes exactly the same result
(assignment and final state, at every fuel) as the variant that rolls back
and tries the next value as soon as inference returns `False`: when
inference fails, some variable's domain is empty, that variable is
selected next with no candidate values, so the unconditional recursive
call returns failure on the unchanged state and the same rollback
follows. -/
theorem inference_check_equivalence_c9 (csp : CSP) (acFuel : Nat)
    (hcs : ∀ c ∈ csp.constraints, c.var1 < csp.numVars ∧ c.var2 < csp.numVars) :
    ∀ (fuel : Nat) (s : SearchState),
      backtrack csp acFuel fuel s = backtrackChecked csp acFuel fuel s := by
  intro fuel
  induction fuel with
  | zero => intro s; rfl
  | succ fuel ih =>
    intro s
    rw [backtrack, backtrackChecked]
    by_cases hcomp : isComplete csp s = true
    · rw [if_pos hcomp, if_pos hcomp]
    · rw [if_neg hcomp, if_neg hcomp]
      cases hsel : selectUnassignedVariable csp s with
      | none => rfl
      | some v =>
        show tryValues (backtrack csp acFuel fuel) csp acFuel v
              (orderDomainValues csp s v) s
            = tryValuesChecked (backtrackChecked csp acFuel fuel) csp acFuel v
              (orderDomainValues csp s v) s
        rw [tryValues_eq_checked csp acFuel hcs fuel v]
        exact tryValuesChecked_congr csp acFuel v _ _ ih _ s

/-- Witness for C9 on the concrete instance whose inference step does
return `False` on the first trial value (assigning `1` to variable `0`
empties variable `1`'s domain): both variants still agree. -/
theorem inference_check_equivalence_c9_witness :
    backtrack ⟨2, [⟨0, 1, .lt⟩]⟩ 30 10 ⟨[[1, 2], [1, 2]], []⟩
      = backtrackChecked ⟨2, [⟨0, 1, .lt⟩]⟩ 30 10 ⟨[[1, 2], [1, 2]], []⟩ :=
  inference_check_equivalence_c9 ⟨2, [⟨0, 1, .lt⟩]⟩ 30 (by decide) 10
    ⟨[[1, 2], [1, 2]], []⟩

/-! ### Claim C8 -/

/-- C8.  Determinism: the embedded solver is a pure function of the CSP
instance and initial state, so identical instances (same variables and
initial domains in the same order, same constraints in the same order) and
identical fuel yield identical results; the source's only iteration orders
are Python lists, insertion-ordered dicts, FIFO deques and a stable sort,
all deterministic. -/
theorem solver_deterministic_c8 (csp1 csp2 : CSP) (acFuel fuel : Nat)
    (s1 s2 : SearchState) (hc : csp1 = csp2) (hs : s1 = s2) :
    backtrackingSearch csp1 acFuel fuel s1 = backtrackingSearch csp2 acFuel fuel s2 := by
  subst hc
  subst hs
  rfl

/-- Witness for C8 on a concrete solvable instance. -/
theorem solver_deterministic_c8_witness :
    backtrackingSearch ⟨2, [⟨0, 1, .lt⟩]⟩ 30 10 ⟨[[1, 2], [1, 2]], []⟩ =
      backtrackingSearch ⟨2, [⟨0, 1, .lt⟩]⟩ 30 10 ⟨[[1, 2], [1, 2]], []⟩ :=
  solver_deterministic_c8 ⟨2, [⟨0, 1, .lt⟩]⟩ ⟨2, [⟨0, 1, .lt⟩]⟩ 30 10
    ⟨[[1, 2], [1, 2]], []⟩ ⟨[[1, 2], [1, 2]], []⟩ rfl rfl

/-! ### Claim C10 -/

/-- C10.  For a CSP with an empty variable collection `backtracking_search`
returns the no-solution signal: `backtrack` finds the (vacuously) complete
assignment and returns the empty mapping, and the driver's truthiness test
`if backtrack(csp):` treats the empty dictionary as failure, yielding
`None` rather than the empty complete assignment. -/
theorem empty_csp_returns_none_c10 (cs : List Constraint) (acFuel fuel : Nat)
    (s : SearchState) : (backtrackingSearch ⟨0, cs⟩ acFuel fuel s).1 = none := by
  match fuel with
  | 0 => rfl
  | fuel + 1 =>
    simp [backtrackingSearch, backtrack, isComplete, assignmentOf]

end P3
